import Mathlib

/-!
Verification development for the schema migration planner core
(`iceaxe/schemas/db_memory_serializer.py`): the schema object model,
graph normalization / topological ordering, and the diff / action planner.

The serializer itself (`DatabaseMemorySerializer.order_db_objects`,
`DatabaseMemorySerializer.build_actions`, `DatabaseHandler.convert*`,
`DatabaseHandler._yield_nodes`) is translated directly from the Python
source.  The schema-object stub classes (`db_stubs.py`: representation,
merge, the pointer class), the action recorder (`actions.py`) and the
topological sorter (`action_sorter.py`) are not part of the available
source tree; those pieces are modelled from the specification, with the
model validated against the repository's migration tests.
-/

namespace Iceaxe

/-- Boolean lexicographic strict order on character lists (by code point). -/
def strLt : List Char → List Char → Bool
  | [], [] => false
  | [], _ :: _ => true
  | _ :: _, [] => false
  | a :: as, b :: bs =>
    if a.toNat < b.toNat then true
    else if b.toNat < a.toNat then false
    else strLt as bs

/-- Boolean lexicographic order on strings, used wherever the Python code
sorts by a string key. -/
def strLe (a b : String) : Bool := !(strLt b.data a.data)

/-- Modelled from the spec: the primitive SQL column types of the action
vocabulary (`ColumnType` in the actions module, which is not part of the
available source tree). -/
inductive PrimColumnType
  | INTEGER
  | DOUBLE_PRECISION
  | VARCHAR
  | BOOLEAN
  | BYTEA
  | UUID
  | JSON
  | DATE
  | TIME
  | TIMESTAMP
  | TIMESTAMP_WITH_TIME_ZONE
  | TIME_WITH_TIME_ZONE
  | INTERVAL
deriving DecidableEq, Repr

/-- A column's type: either a primitive SQL type or a pointer to a named
database-backed type (`DBTypePointer`). -/
inductive ColumnTypeRef
  | primitive (t : PrimColumnType)
  | typePointer (name : String)
deriving DecidableEq, Repr

/-- Modelled from the spec: the constraint kinds (`ConstraintType`). -/
inductive ConstraintTypeE
  | PRIMARY_KEY
  | UNIQUE
  | FOREIGN_KEY
  | INDEX
  | CHECK
deriving DecidableEq, Repr

/-- Foreign-key payload of a constraint. -/
structure ForeignKeyConstraintE where
  target_table : String
  target_columns : List String
deriving DecidableEq, Repr

/-- Check-expression payload of a constraint. -/
structure CheckConstraintE where
  check_condition : String
deriving DecidableEq, Repr

/-- Modelled from the spec: the schema object kinds of `db_stubs.py`
(`DBTable`, `DBColumn`, `DBType`, `DBConstraint`), as a closed sum.
The accumulating set fields of `DBType` (values, reference columns) are
kept as canonically sorted duplicate-free lists, standing for the Python
frozensets. -/
inductive DBObject
  | table (table_name : String)
  | column (table_name : String) (column_name : String)
      (column_type : ColumnTypeRef) (column_is_list : Bool) (nullable : Bool)
  | typ (name : String) (values : List String)
      (reference_columns : List (String × String))
  | constraint (table_name : String) (constraint_type : ConstraintTypeE)
      (columns : List String) (constraint_name : String)
      (foreign_key_constraint : Option ForeignKeyConstraintE)
      (check_constraint : Option CheckConstraintE)
deriving DecidableEq, Repr

/-- Modelled from the spec: the stable identity key of each object kind
(`DBObject.representation` in `db_stubs.py`).  The formats are fixed by the
sort order the repository's tests exhibit for dependency lists: a table by
its name, a column by `table.column`, a type by its name, a constraint by
`table.constraint_name`. -/
def representation : DBObject → String
  | .table t => t
  | .column t c _ _ _ => t ++ "." ++ c
  | .typ n _ _ => n
  | .constraint t _ _ n _ _ => t ++ "." ++ n

/-- A graph node as fed to the normalizer: either a full object or a
lightweight pointer carrying only a representation (`DBObjectPointer`,
modelled from the spec). -/
inductive DBNode
  | obj (o : DBObject)
  | ptr (rep : String)
deriving DecidableEq, Repr

/-- Representation of a full object or a pointer. -/
def repNode : DBNode → String
  | .obj o => representation o
  | .ptr r => r

/-- The Python exceptions of the planner core, embedded as a closed error
type so theorems can name which error is raised. -/
inductive SerializerError
  | mergeConflict (rep : String)
  | unresolvedPointer (rep : String)
  | keyError (rep : String)
  | cycleError
  | orderingMismatch (keys : List String)
  | valueError (msg : String)
deriving DecidableEq, Repr

/-- Insert into a sorted list according to a boolean order (the stable
insertion step used for canonical set representations and key sorts). -/
def insertLe {α : Type} (le : α → α → Bool) (x : α) : List α → List α
  | [] => [x]
  | y :: ys => if le x y then x :: y :: ys else y :: insertLe le x ys

/-- Stable insertion sort by a boolean order; mirrors Python's stable
`sorted` at the call sites that sort by a key. -/
def sortLe {α : Type} (le : α → α → Bool) (l : List α) : List α :=
  l.foldr (insertLe le) []

/-- Canonical form of a string set: duplicates removed, sorted. -/
def canonStrings (l : List String) : List String := sortLe strLe l.dedup

/-- Boolean order on (table, column) pairs. -/
def pairLe (a b : String × String) : Bool :=
  if a.1 = b.1 then strLe a.2 b.2 else strLe a.1 b.1

/-- Canonical form of a set of (table, column) pairs. -/
def canonPairs (l : List (String × String)) : List (String × String) :=
  sortLe pairLe l.dedup

/-- Modelled from the spec: `DBObject.merge`.  Two objects of equal
representation are combined: for Type nodes the accumulating fields
(values, reference columns) take the union of both sides; any other pair
must be structurally identical, otherwise the duplicate definition is a
configuration conflict. -/
def merge (cur other : DBObject) : Except SerializerError DBObject :=
  match cur, other with
  | .typ n v r, .typ n' v' r' =>
    if n = n' then .ok (.typ n (canonStrings (v ++ v')) (canonPairs (r ++ r')))
    else .error (.mergeConflict (representation cur))
  | a, b =>
    if a = b then .ok a else .error (.mergeConflict (representation a))

/-- Association-list lookup by string key. -/
def lookupS {α : Type} : List (String × α) → String → Option α
  | [], _ => none
  | (k, v) :: rest, key => if k = key then some v else lookupS rest key

/-- Insert-or-replace in an association list, keeping the original key
position on replacement — exactly the Python `dict` update semantics used
by the by-name indexes. -/
def upsert {α : Type} : List (String × α) → String → α → List (String × α)
  | [], k, v => [(k, v)]
  | (k', v') :: rest, k, v =>
    if k' = k then (k', v) :: rest else (k', v') :: upsert rest k v

/-- One iteration of the first pass of `order_db_objects`: pointers are
skipped; a full object is merged with the existing entry of its
representation, or inserted. -/
def buildByNameStep (m : List (String × DBObject)) :
    DBNode → Except SerializerError (List (String × DBObject))
  | .ptr _ => .ok m
  | .obj o =>
    match lookupS m (representation o) with
    | some cur => do
      let merged ← merge cur o
      .ok (upsert m (representation o) merged)
    | none => .ok (upsert m (representation o) o)

/-- Loop of the first pass of `order_db_objects`, carrying the map built
so far. -/
def buildByNameAux : List (DBNode × List DBNode) →
    List (String × DBObject) →
    Except SerializerError (List (String × DBObject))
  | [], m => .ok m
  | p :: rest, m => do
    let next ← buildByNameStep m p.1
    buildByNameAux rest next

/-- First pass of `DatabaseMemorySerializer.order_db_objects`: build the
representation-to-canonical-object map, skipping pointer entries and
merging repeated representations (`db_objects_by_name` in the source). -/
def buildByName (input : List (DBNode × List DBNode)) :
    Except SerializerError (List (String × DBObject)) :=
  buildByNameAux input []

/-- Second pass of `order_db_objects`: the first dependency pointer whose
representation is not a key of the canonical map, scanning pairs and their
dependency lists in order. -/
def firstUnresolvedPointer (input : List (DBNode × List DBNode))
    (m : List (String × DBObject)) : Option String :=
  (input.flatMap (fun p => p.2)).findSome?
    (fun d =>
      match d with
      | .ptr r => if lookupS m r = none then some r else none
      | .obj _ => none)

/-- The pointer-resolution check of `order_db_objects`: an unresolved
dependency pointer is a fatal error naming the missing representation. -/
def checkPointers (input : List (DBNode × List DBNode))
    (m : List (String × DBObject)) : Except SerializerError Unit :=
  match firstUnresolvedPointer input m with
  | some r => .error (.unresolvedPointer r)
  | none => .ok ()

/-- Map one dependency to its canonical object; a dependency (full object
or pointer) whose representation has no canonical entry raises a lookup
error, as the Python subscript `db_objects_by_name[...]` would. -/
def canonDep (m : List (String × DBObject)) (d : DBNode) :
    Except SerializerError DBObject :=
  match lookupS m (repNode d) with
  | some o => .ok o
  | none => .error (.keyError (repNode d))

/-- Map a dependency list to canonical objects in order. -/
def canonDeps (m : List (String × DBObject)) :
    List DBNode → Except SerializerError (List DBObject)
  | [] => .ok []
  | d :: rest => do
    let v ← canonDep m d
    let vs ← canonDeps m rest
    .ok (v :: vs)

/-- Loop of the third pass, carrying the edge map built so far. -/
def buildGraphEdgesAux (m : List (String × DBObject)) :
    List (DBNode × List DBNode) →
    List (String × (DBObject × List DBObject)) →
    Except SerializerError (List (String × (DBObject × List DBObject)))
  | [], acc => .ok acc
  | p :: rest, acc => do
    let key ← canonDep m p.1
    let deps ← canonDeps m p.2
    buildGraphEdgesAux m rest (upsert acc (representation key) (key, deps))

/-- Third pass of `order_db_objects`: the `graph_edges` dictionary, keyed
by canonical object (equivalently its representation); a later pair with
the same representation overwrites the dependency list of an earlier one,
exactly like the Python dict comprehension. -/
def buildGraphEdges (input : List (DBNode × List DBNode))
    (m : List (String × DBObject)) :
    Except SerializerError (List (String × (DBObject × List DBObject))) :=
  buildGraphEdgesAux m input []

/-- One generation of ready nodes: the pending entries all of whose
dependencies have already been emitted. -/
def readyNodes (emitted : List String)
    (pending : List (String × (DBObject × List DBObject))) :
    List (String × (DBObject × List DBObject)) :=
  pending.filter (fun p => p.2.2.all (fun d => emitted.contains (representation d)))

/-- Modelled from the spec: the topological sorter
(`ActionTopologicalSorter` in `action_sorter.py`, not part of the
available source tree).  Kahn's algorithm processed generation by
generation: every node whose dependencies are all satisfied is emitted in
the current batch, ties inside a batch broken by the deterministic
emission order of the input; no progress with nodes left over is a fatal
cycle error.  The generation structure and tie-break are validated against
the action order asserted by the repository's migration tests. -/
def kahnLoop : Nat → List String → List (String × (DBObject × List DBObject)) →
    Except SerializerError (List DBObject)
  | _, _, [] => .ok []
  | 0, _, _ :: _ => .error .cycleError
  | fuel + 1, emitted, p :: ps =>
    if (readyNodes emitted (p :: ps)).isEmpty then .error .cycleError
    else do
      let rest ← kahnLoop fuel
        (emitted ++ (readyNodes emitted (p :: ps)).map (fun q => q.1))
        ((p :: ps).filter
          (fun q => !(q.2.2.all (fun d => emitted.contains (representation d)))))
      .ok ((readyNodes emitted (p :: ps)).map (fun q => q.2.1) ++ rest)

/-- Pair each emitted object with its position: the rank map
`{obj: i for i, obj in enumerate(ts.sort())}`. -/
def withRanks : List DBObject → Nat → List (DBObject × Nat)
  | [], _ => []
  | o :: rest, i => (o, i) :: withRanks rest (i + 1)

/-- `DatabaseMemorySerializer.order_db_objects`: normalize full objects
and pointers to canonical objects, validate pointer resolution, rewrite
dependency edges, topologically sort and return the rank map. -/
def order_db_objects (input : List (DBNode × List DBNode)) :
    Except SerializerError (List (DBObject × Nat)) := do
  let m ← buildByName input
  checkPointers input m
  let edges ← buildGraphEdges input m
  let sortedObjs ← kahnLoop edges.length [] edges
  .ok (withRanks sortedObjs 0)

/-- The calls `build_actions` performs on the schema objects: a create,
migrate or destroy per object, recorded in emission order.  (Each call in
turn drives the actor capability; the claims are about the calls
themselves.) -/
inductive PlanAction
  | create (o : DBObject)
  | migrate (previous : DBObject) (next : DBObject)
  | destroy (o : DBObject)
deriving DecidableEq, Repr

/-- Index a plain object list by representation; a later object with the
same representation overwrites an earlier one (`previous_by_name`,
`next_by_name`). -/
def byName (l : List DBObject) : List (String × DBObject) :=
  l.foldl (fun m o => upsert m (representation o) o) []

/-- Index a rank map by representation (`previous_ordering_by_name`,
`next_ordering_by_name`). -/
def ordByName (l : List (DBObject × Nat)) : List (String × Nat) :=
  l.foldl (fun m p => upsert m (representation p.1) p.2) []

/-- Boolean set equality of two key lists. -/
def sameKeySet (a b : List String) : Bool :=
  a.all (fun k => b.contains k) && b.all (fun k => a.contains k)

/-- The symmetric difference of the two key sets, reported in the
mismatch error. -/
def mismatchKeys (a b : List String) : List String :=
  a.filter (fun k => !b.contains k) ++ b.filter (fun k => !a.contains k)

/-- The verification step of `build_actions`: the key set of a rank map
must exactly equal the representation set of its object list; a mismatch
is fatal, raised before any action is emitted. -/
def checkOrdering (ordering : List (String × Nat))
    (objects : List (String × DBObject)) : Except SerializerError Unit :=
  if sameKeySet (ordering.map (fun p => p.1)) (objects.map (fun p => p.1)) then
    .ok ()
  else
    .error (.orderingMismatch
      (mismatchKeys (ordering.map (fun p => p.1)) (objects.map (fun p => p.1))))

/-- Rank of an object under a by-name ordering (always present once the
ordering check has passed). -/
def rankOf (ordering : List (String × Nat)) (o : DBObject) : Nat :=
  (lookupS ordering (representation o)).getD 0

/-- Sort deduplicated objects by their rank (`sorted(..., key=...)`). -/
def sortByRank (ordering : List (String × Nat)) (objs : List DBObject) :
    List DBObject :=
  List.insertionSort (fun a b => rankOf ordering a ≤ rankOf ordering b) objs

/-- The create/migrate pass of `build_actions` over the rank-sorted next
objects: absent from previous means create; present but value-unequal
means migrate; equal means no action. -/
def createMigrateActions (prevByName : List (String × DBObject))
    (nextSorted : List DBObject) : List PlanAction :=
  nextSorted.filterMap
    (fun o =>
      match lookupS prevByName (representation o) with
      | none => some (.create o)
      | some p => if p ≠ o then some (.migrate p o) else none)

/-- The destroy pass of `build_actions`: previous objects absent from the
next snapshot, in reverse creation order. -/
def destroyActions (nextByName : List (String × DBObject))
    (prevSorted : List DBObject) : List PlanAction :=
  ((prevSorted.filter
      (fun p => lookupS nextByName (representation p) = none)).reverse).map
    .destroy

/-- `DatabaseMemorySerializer.build_actions`: index both snapshots by
representation, verify the rank maps, sort each deduplicated snapshot by
its rank, then emit creates/migrates in ascending next rank followed by
destroys in descending previous rank. -/
def build_actions (previous : List DBObject)
    (previousOrdering : List (DBObject × Nat)) (next : List DBObject)
    (nextOrdering : List (DBObject × Nat)) :
    Except SerializerError (List PlanAction) := do
  let prevByName := byName previous
  let nextByName := byName next
  let prevOrdByName := ordByName previousOrdering
  let nextOrdByName := ordByName nextOrdering
  checkOrdering prevOrdByName prevByName
  checkOrdering nextOrdByName nextByName
  let prevSorted := sortByRank prevOrdByName (prevByName.map (fun p => p.2))
  let nextSorted := sortByRank nextOrdByName (nextByName.map (fun p => p.2))
  .ok (createMigrateActions prevByName nextSorted ++
    destroyActions nextByName prevSorted)

/-- Lower-case an ASCII character (for `annotation.__name__.lower()`). -/
def lowerChar (c : Char) : Char :=
  if 65 ≤ c.toNat && c.toNat ≤ 90 then Char.ofNat (c.toNat + 32) else c

/-- Lower-case a string. -/
def lowerStr (s : String) : String := ⟨s.data.map lowerChar⟩

/-- The Python primitives of the `python_to_sql` mapping. -/
inductive PrimPy
  | pyInt
  | pyFloat
  | pyStr
  | pyBool
  | pyBytes
  | pyUUID
  | pyAny
deriving DecidableEq, Repr

/-- The `python_to_sql` dictionary of `DatabaseHandler`. -/
def pythonToSql : PrimPy → PrimColumnType
  | .pyInt => .INTEGER
  | .pyFloat => .DOUBLE_PRECISION
  | .pyStr => .VARCHAR
  | .pyBool => .BOOLEAN
  | .pyBytes => .BYTEA
  | .pyUUID => .UUID
  | .pyAny => .JSON

/-- The pre-resolved type category of a field annotation, mirroring the
classification chain of `handle_column_type` (enum types first, then
primitive wrappers, the date/time family, and the JSON-like fallback).
An enum annotation carries the Python class name and its member names;
descriptor strings stand in for the Python type text used in error
messages. -/
inductive AnnCore
  | enumAnn (className : String) (memberNames : List String)
  | prim (p : PrimPy)
  | primList (p : PrimPy)
  | dtDatetime
  | dtDate
  | dtTime
  | dtTimedelta
  | jsonFallback (desc : String)
  | unsupported (desc : String)
deriving DecidableEq, Repr

/-- A field annotation: its non-null core plus whether the annotation was
nullable (`has_null_type` / `remove_null_type`). -/
structure AnnotT where
  core : AnnCore
  hasNull : Bool
deriving DecidableEq, Repr

/-- Per-field Postgres configuration (`PostgresDateTime` / `PostgresTime`). -/
inductive PGConfig
  | pgDateTime (timezone : Bool)
  | pgTime (timezone : Bool)
deriving DecidableEq, Repr

/-- A field descriptor (`DBFieldInfo`), restricted to what the extractor
reads.  Internal bookkeeping fields of the table base class are not part
of the descriptor list. -/
structure FieldDesc where
  annot : Option AnnotT
  primary_key : Bool
  unique : Bool
  index : Bool
  foreign_key : Option String
  check_expression : Option String
  is_json : Bool
  postgres_config : Option PGConfig
deriving DecidableEq, Repr

/-- A table-level composite constraint descriptor. -/
inductive TableArg
  | uniqueArg (columns : List String)
  | indexArg (columns : List String)
deriving DecidableEq, Repr

/-- A table descriptor: resolved table name, fields in declaration order,
and the optional table-level constraint list (`table_args`). -/
structure TableDesc where
  table_name : String
  fields : List (String × FieldDesc)
  table_args : Option (List TableArg)
deriving DecidableEq, Repr

/-- `TypeDeclarationResponse`. -/
structure TypeDeclResp where
  primitive_type : Option PrimColumnType
  custom_type : Option DBObject
  is_list : Bool
deriving DecidableEq, Repr

/-- `DatabaseHandler.handle_column_type`: classify one field annotation.
Enumerated types become a `DBType` carrying the declaring column as a
reference; primitives map through `python_to_sql` with an independent
list flag; the date/time family is disambiguated by the per-field
Postgres configuration, defaulting to the zone-naive variant; JSON-like
fallback annotations require the explicit `is_json` opt-in. -/
def handle_column_type (key : String) (info : FieldDesc) (table : TableDesc) :
    Except SerializerError TypeDeclResp :=
  match info.annot with
  | none => .error (.valueError
      ("Annotation must be provided for " ++ table.table_name ++ "." ++ key))
  | some ann =>
    match ann.core with
    | .enumAnn n vs =>
      .ok ⟨none,
        some (.typ (lowerStr n) (canonStrings vs)
          (canonPairs [(table.table_name, key)])), false⟩
    | .prim p => .ok ⟨some (pythonToSql p), none, false⟩
    | .primList p => .ok ⟨some (pythonToSql p), none, true⟩
    | .dtDatetime =>
      match info.postgres_config with
      | some (.pgDateTime tz) =>
        .ok ⟨some (if tz then .TIMESTAMP_WITH_TIME_ZONE else .TIMESTAMP),
          none, false⟩
      | _ => .ok ⟨some .TIMESTAMP, none, false⟩
    | .dtDate => .ok ⟨some .DATE, none, false⟩
    | .dtTime =>
      match info.postgres_config with
      | some (.pgTime tz) =>
        .ok ⟨some (if tz then .TIME_WITH_TIME_ZONE else .TIME), none, false⟩
      | _ => .ok ⟨some .TIME, none, false⟩
    | .dtTimedelta => .ok ⟨some .INTERVAL, none, false⟩
    | .jsonFallback d =>
      if info.is_json then .ok ⟨some .JSON, none, false⟩
      else .error (.valueError
        ("JSON fields must have Field(is_json=True) specified: " ++ d))
    | .unsupported d => .error (.valueError ("Unsupported column type: " ++ d))

/-- A flattened emission: a node, its formatted dependency list, and the
"do not inherit the caller's ambient dependencies" flag
(`NodeDefinition`). -/
structure NodeDef where
  node : DBObject
  dependencies : List DBObject
  force_no_dependencies : Bool
deriving DecidableEq, Repr

/-- An element of a dependency argument to `_yield_nodes`: a plain object
or a node definition (`NodeYieldType`). -/
inductive NodeYield
  | o (x : DBObject)
  | d (n : NodeDef)
deriving DecidableEq, Repr

/-- `_format_dependencies` inside `_yield_nodes`: collect each plain
object, and each node definition together with its own dependencies, then
deduplicate and sort by representation. -/
def formatDependencies (l : List NodeYield) : List DBObject :=
  sortLe (fun a b => strLe (representation a) (representation b))
    ((l.flatMap
      (fun y =>
        match y with
        | .o x => [x]
        | .d n => n.node :: n.dependencies)).dedup)

/-- `_yield_nodes` applied to a bare object: wrap it with the formatted
ambient dependencies and the given inherit flag. -/
def yieldLeaf (child : DBObject) (deps : List NodeDef) (force : Bool) :
    List NodeDef :=
  [⟨child, formatDependencies (deps.map .d), force⟩]

/-- `_yield_nodes` re-processing an already-built node definition with
ambient dependencies: the ambient list is prepended unless the child
declared `force_no_dependencies`. -/
def wrapChild (ambient : List NodeDef) (child : NodeDef) : NodeDef :=
  ⟨child.node,
    formatDependencies
      ((if child.force_no_dependencies then [] else ambient.map .d) ++
        child.dependencies.map .o),
    false⟩

/-- `_yield_nodes` applied to a nested generator: every yielded node
definition is re-processed against the ambient dependencies. -/
def yieldNested (children : List NodeDef) (ambient : List NodeDef) :
    List NodeDef :=
  children.map (wrapChild ambient)

/-- Name of a custom type object. -/
def dbTypeName : DBObject → String
  | .typ n _ _ => n
  | o => representation o

/-- Modelled from the spec: `DBConstraint.new_constraint_name`
(`db_stubs.py` is not part of the available source tree): deterministic
constraint names, `<table>_pkey` for primary keys and
table+columns+kind for the rest. -/
def new_constraint_name (tableName : String) (columns : List String)
    (ct : ConstraintTypeE) : String :=
  match ct with
  | .PRIMARY_KEY => tableName ++ "_pkey"
  | .UNIQUE => tableName ++ "_" ++ String.intercalate "_" columns ++ "_unique"
  | .FOREIGN_KEY => tableName ++ "_" ++ String.intercalate "_" columns ++ "_fkey"
  | .INDEX => tableName ++ "_" ++ String.intercalate "_" columns ++ "_idx"
  | .CHECK => tableName ++ "_" ++ String.intercalate "_" columns ++ "_check"

/-- `DatabaseHandler.convert_column`: emit the column's custom type first
(with `force_no_dependencies`), then the column node depending on it; a
primitive column is emitted alone. -/
def convert_column (key : String) (info : FieldDesc) (table : TableDesc) :
    Except SerializerError (List NodeDef) :=
  match info.annot with
  | none => .error (.valueError
      ("Annotation must be provided for " ++ table.table_name ++ "." ++ key))
  | some ann => do
    let resp ← handle_column_type key info table
    match resp.custom_type with
    | some t =>
      let typeDeps := yieldLeaf t [] true
      .ok (typeDeps ++
        yieldLeaf
          (.column table.table_name key (.typePointer (dbTypeName t))
            resp.is_list ann.hasNull)
          typeDeps false)
    | none =>
      match resp.primitive_type with
      | some p =>
        .ok (yieldLeaf
          (.column table.table_name key (.primitive p) resp.is_list ann.hasNull)
          [] false)
      | none => .error (.valueError "Column type must be provided")

/-- `DatabaseHandler.handle_multiple_constraints`: one multi-column
constraint node per table-level descriptor. -/
def mkMultiConstraint (a : TableArg) (table : TableDesc) : DBObject :=
  match a with
  | .uniqueArg cols =>
    .constraint table.table_name .UNIQUE (canonStrings cols)
      (new_constraint_name table.table_name cols .UNIQUE) none none
  | .indexArg cols =>
    .constraint table.table_name .INDEX (canonStrings cols)
      (new_constraint_name table.table_name cols .INDEX) none none

/-- `DatabaseHandler.convert_table`: the table node, then each field's
nodes wrapped with the table as ambient dependency, then the primary-key
constraint (depending on all column nodes), then the table-level
constraints. -/
def convert_table (table : TableDesc) : Except SerializerError (List NodeDef) := do
  let tableNodes := yieldLeaf (.table table.table_name) [] false
  let colNodes ← table.fields.foldlM
    (fun acc f => do
      let cn ← convert_column f.1 f.2 table
      .ok (acc ++ yieldNested cn tableNodes))
    []
  let pks := table.fields.filter (fun f => f.2.primary_key)
  let pkNodes :=
    if pks.isEmpty then []
    else
      yieldNested
        (yieldLeaf
          (.constraint table.table_name .PRIMARY_KEY
            (canonStrings (pks.map (fun f => f.1)))
            (new_constraint_name table.table_name (pks.map (fun f => f.1))
              .PRIMARY_KEY)
            none none)
          [] false)
        colNodes
  let argNodes :=
    match table.table_args with
    | none => []
    | some args =>
      args.flatMap
        (fun a => yieldNested (yieldLeaf (mkMultiConstraint a table) [] false)
          colNodes)
  .ok (tableNodes ++ colNodes ++ pkNodes ++ argNodes)

/-- `DatabaseHandler.convert` (reached through
`DatabaseMemorySerializer.delegate`): process tables sorted by table name
and flatten each table's nodes into (object, dependency-list) pairs. -/
def convert (tables : List TableDesc) :
    Except SerializerError (List (DBObject × List DBObject)) := do
  let sorted := sortLe (fun a b => strLe a.table_name b.table_name) tables
  let nds ← sorted.foldlM
    (fun acc t => do
      let tn ← convert_table t
      .ok (acc ++ tn))
    []
  .ok (nds.map (fun nd => (nd.node, nd.dependencies)))

/-- The bootstrap pipeline the repository's from-scratch tests drive:
extract, order, then diff against an empty previous state. -/
def migrateFromScratch (tables : List TableDesc) :
    Except SerializerError (List PlanAction) := do
  let pairs ← convert tables
  let input := pairs.map (fun p => (DBNode.obj p.1, p.2.map DBNode.obj))
  let ranks ← order_db_objects input
  build_actions [] [] (pairs.map (fun p => p.1)) ranks

/-- The most recent object of a given representation in a list: the one a
Python dict comprehension keyed by representation retains. -/
def lastOcc (l : List DBObject) (r : String) : Option DBObject :=
  l.reverse.find? (fun o => representation o == r)

section AssocLemmas

lemma lookupS_upsert {α : Type} (m : List (String × α)) (k : String) (v : α)
    (r : String) :
    lookupS (upsert m k v) r = if k = r then some v else lookupS m r := by
  induction m with
  | nil => simp [upsert, lookupS]
  | cons p rest ih =>
    rcases p with ⟨pk, pv⟩
    by_cases hpk : pk = k
    · subst hpk
      by_cases hkr : pk = r
      · simp [upsert, lookupS, hkr]
      · simp [upsert, lookupS, hkr]
    · by_cases hpr : pk = r
      · have hkr : ¬ k = r := fun h => hpk (hpr ▸ h ▸ rfl)
        have hrk : ¬ r = k := fun h => hkr h.symm
        simp [upsert, lookupS, hpk, hpr, hkr, hrk]
      · simp [upsert, lookupS, hpk, hpr, ih]

lemma mem_upsert {α : Type} {m : List (String × α)} {k : String} {v : α}
    {p : String × α} (h : p ∈ upsert m k v) : p ∈ m ∨ p = (k, v) := by
  induction m with
  | nil => simpa [upsert] using h
  | cons q rest ih =>
    rcases q with ⟨qk, qv⟩
    by_cases hqk : qk = k
    · rw [upsert, if_pos hqk] at h
      rcases List.mem_cons.mp h with h1 | h1
      · right
        rw [h1, hqk]
      · exact Or.inl (List.mem_cons_of_mem _ h1)
    · rw [upsert, if_neg hqk] at h
      rcases List.mem_cons.mp h with h1 | h1
      · exact Or.inl (h1 ▸ List.mem_cons_self _ _)
      · rcases ih h1 with h2 | h2
        · exact Or.inl (List.mem_cons_of_mem _ h2)
        · exact Or.inr h2

lemma keys_upsert_subset {α : Type} (m : List (String × α)) (k : String) (v : α) :
    ∀ r, r ∈ (upsert m k v).map (fun p => p.1) → r ∈ m.map (fun p => p.1) ∨ r = k := by
  intro r hr
  rcases List.mem_map.mp hr with ⟨p, hp, hpr⟩
  rcases mem_upsert hp with h | h
  · exact Or.inl (hpr ▸ List.mem_map_of_mem _ h)
  · right
    rw [← hpr, h]

lemma keys_upsert_mem {α : Type} (m : List (String × α)) (k : String) (v : α) :
    k ∈ (upsert m k v).map (fun p => p.1) := by
  induction m with
  | nil => simp [upsert]
  | cons q rest ih =>
    by_cases hqk : q.1 = k
    · simp [upsert, hqk]
    · simp only [upsert, if_neg hqk, List.map_cons, List.mem_cons]
      exact Or.inr ih

lemma keys_upsert_mono {α : Type} (m : List (String × α)) (k : String) (v : α) :
    ∀ r, r ∈ m.map (fun p => p.1) → r ∈ (upsert m k v).map (fun p => p.1) := by
  intro r hr
  induction m with
  | nil => simp at hr
  | cons q rest ih =>
    by_cases hqk : q.1 = k
    · simpa [upsert, hqk] using hr
    · simp only [List.map_cons, List.mem_cons] at hr
      rcases hr with hr | hr
      · simp [upsert, if_neg hqk, hr]
      · simp only [upsert, if_neg hqk, List.map_cons, List.mem_cons]
        exact Or.inr (ih hr)

lemma nodup_keys_upsert {α : Type} (m : List (String × α)) (k : String) (v : α)
    (h : (m.map (fun p => p.1)).Nodup) :
    ((upsert m k v).map (fun p => p.1)).Nodup := by
  induction m with
  | nil => simp [upsert]
  | cons q rest ih =>
    simp only [List.map_cons, List.nodup_cons] at h
    by_cases hqk : q.1 = k
    · simp only [upsert, if_pos hqk, List.map_cons, List.nodup_cons]
      exact ⟨hqk ▸ h.1, h.2⟩
    · simp only [upsert, if_neg hqk, List.map_cons, List.nodup_cons]
      refine ⟨fun hmem => ?_, ih h.2⟩
      rcases keys_upsert_subset rest k v _ hmem with h' | h'
      · exact h.1 h'
      · exact hqk h'

lemma lookupS_eq_some_of_mem {α : Type} {m : List (String × α)} {k : String}
    {v : α} (hn : (m.map (fun p => p.1)).Nodup) (h : (k, v) ∈ m) :
    lookupS m k = some v := by
  induction m with
  | nil => simp at h
  | cons q rest ih =>
    simp only [List.map_cons, List.nodup_cons] at hn
    rcases List.mem_cons.mp h with h' | h'
    · rw [← h']
      simp [lookupS]
    · have hq : ¬ q.1 = k := by
        intro he
        exact hn.1 (he ▸ List.mem_map_of_mem _ h')
      simp only [lookupS, if_neg hq]
      exact ih hn.2 h'

lemma lookupS_isSome_of_mem_keys {α : Type} {m : List (String × α)} {k : String}
    (h : k ∈ m.map (fun p => p.1)) : ∃ v, lookupS m k = some v := by
  induction m with
  | nil => simp at h
  | cons q rest ih =>
    by_cases hq : q.1 = k
    · exact ⟨q.2, by simp [lookupS, hq]⟩
    · simp only [List.map_cons, List.mem_cons] at h
      rcases h with h | h
      · exact absurd h.symm hq
      · rcases ih h with ⟨v, hv⟩
        exact ⟨v, by simp [lookupS, hq, hv]⟩

lemma mem_of_lookupS_eq_some {α : Type} {m : List (String × α)} {k : String}
    {v : α} (h : lookupS m k = some v) : (k, v) ∈ m := by
  induction m with
  | nil => simp [lookupS] at h
  | cons q rest ih =>
    by_cases hq : q.1 = k
    · simp only [lookupS, if_pos hq] at h
      have hv : q.2 = v := Option.some_inj.mp h
      have : q = (k, v) := Prod.ext hq hv
      exact this ▸ List.mem_cons_self _ _
    · simp only [lookupS, if_neg hq] at h
      exact List.mem_cons_of_mem _ (ih h)

end AssocLemmas

section ByNameLemmas

lemma byName_fold_keyInv (l : List DBObject) (m0 : List (String × DBObject))
    (h0 : ∀ p ∈ m0, p.1 = representation p.2) :
    ∀ p ∈ l.foldl (fun m o => upsert m (representation o) o) m0,
      p.1 = representation p.2 := by
  induction l generalizing m0 with
  | nil => exact h0
  | cons o rest ih =>
    intro p hp
    refine ih (upsert m0 (representation o) o) ?_ p hp
    intro q hq
    rcases mem_upsert hq with h | h
    · exact h0 q h
    · rw [h]

lemma byName_keyInv (l : List DBObject) :
    ∀ p ∈ byName l, p.1 = representation p.2 :=
  byName_fold_keyInv l [] (by intro p hp; simp at hp)

lemma byName_fold_nodup (l : List DBObject) (m0 : List (String × DBObject))
    (h0 : (m0.map (fun p => p.1)).Nodup) :
    (((l.foldl (fun m o => upsert m (representation o) o) m0).map
      (fun p => p.1))).Nodup := by
  induction l generalizing m0 with
  | nil => exact h0
  | cons o rest ih =>
    exact ih _ (nodup_keys_upsert m0 (representation o) o h0)

lemma byName_keys_nodup (l : List DBObject) :
    ((byName l).map (fun p => p.1)).Nodup :=
  byName_fold_nodup l [] (by simp)

lemma byName_fold_values (l : List DBObject) (m0 : List (String × DBObject))
    (h0 : ∀ p ∈ m0, p.2 ∈ l ∨ p ∈ m0) :
    ∀ p ∈ l.foldl (fun m o => upsert m (representation o) o) m0,
      p.2 ∈ l ∨ p ∈ m0 := by
  induction l generalizing m0 with
  | nil => exact h0
  | cons o rest ih =>
    intro p hp
    have step : ∀ q ∈ upsert m0 (representation o) o,
        q.2 ∈ o :: rest ∨ q ∈ m0 := by
      intro q hq
      rcases mem_upsert hq with h | h
      · exact Or.inr h
      · exact Or.inl (by rw [h]; exact List.mem_cons_self _ _)
    have := ih (upsert m0 (representation o) o)
      (fun q hq => Or.inr hq) p hp
    rcases this with h | h
    · exact Or.inl (List.mem_cons_of_mem _ h)
    · rcases step p h with h' | h'
      · exact Or.inl h'
      · exact Or.inr h'

lemma byName_values_mem (l : List DBObject) :
    ∀ p ∈ byName l, p.2 ∈ l := by
  intro p hp
  rcases byName_fold_values l [] (by intro q hq; simp at hq) p hp with h | h
  · exact h
  · simp at h

lemma byName_fold_keys_mono (l : List DBObject) (m0 : List (String × DBObject))
    (r : String) (h : r ∈ m0.map (fun p => p.1)) :
    r ∈ ((l.foldl (fun m o => upsert m (representation o) o) m0).map
      (fun p => p.1)) := by
  induction l generalizing m0 with
  | nil => exact h
  | cons x rest ih => exact ih _ (keys_upsert_mono m0 _ _ _ h)

lemma byName_fold_keys_mem (l : List DBObject) (m0 : List (String × DBObject))
    (o : DBObject) (ho : o ∈ l) :
    representation o ∈
      ((l.foldl (fun m o => upsert m (representation o) o) m0).map
        (fun p => p.1)) := by
  induction l generalizing m0 with
  | nil => simp at ho
  | cons x rest ih =>
    rcases List.mem_cons.mp ho with h | h
    · subst h
      exact byName_fold_keys_mono rest _ _ (keys_upsert_mem m0 _ _)
    · exact ih _ h

lemma mem_keys_byName {l : List DBObject} {o : DBObject} (ho : o ∈ l) :
    representation o ∈ (byName l).map (fun p => p.1) :=
  byName_fold_keys_mem l [] o ho

lemma lookupS_fold_upsert (l : List DBObject) (m0 : List (String × DBObject))
    (r : String) :
    lookupS (l.foldl (fun m o => upsert m (representation o) o) m0) r =
      match lastOcc l r with
      | some v => some v
      | none => lookupS m0 r := by
  induction l generalizing m0 with
  | nil => simp [lastOcc]
  | cons o rest ih =>
    rw [List.foldl_cons, ih]
    have hsplit : lastOcc (o :: rest) r =
        match lastOcc rest r with
        | some v => some v
        | none =>
          match representation o == r with
          | true => some o
          | false => none := by
      unfold lastOcc
      rw [List.reverse_cons, List.find?_append]
      cases h : List.find? (fun x => representation x == r) rest.reverse with
      | none =>
        cases hb : representation o == r with
        | true => simp [h, List.find?, hb]
        | false => simp [h, List.find?, hb]
      | some v => simp [h]
    rw [hsplit]
    cases h : lastOcc rest r with
    | some v => simp
    | none =>
      rw [lookupS_upsert]
      cases hb : representation o == r with
      | true =>
        have hr : representation o = r := by simpa using hb
        simp [hr]
      | false =>
        have hr : ¬ representation o = r := by simpa using hb
        simp [hr, hb]

lemma lookupS_byName (l : List DBObject) (r : String) :
    lookupS (byName l) r = lastOcc l r := by
  unfold byName
  rw [lookupS_fold_upsert]
  cases h : lastOcc l r with
  | some v => rfl
  | none => rfl

end ByNameLemmas

section IndexLemmas

lemma indexOf_append_left {α : Type} [DecidableEq α] {a : α} {l1 l2 : List α}
    (h : a ∈ l1) : (l1 ++ l2).indexOf a = l1.indexOf a := by
  induction l1 with
  | nil => simp at h
  | cons x xs ih =>
    by_cases hx : x = a
    · subst hx
      simp [List.indexOf_cons_self]
    · rcases List.mem_cons.mp h with h' | h'
      · exact absurd h'.symm hx
      · rw [List.cons_append, List.indexOf_cons_ne _ hx,
          List.indexOf_cons_ne _ hx, ih h']

lemma indexOf_append_right {α : Type} [DecidableEq α] {a : α} {l1 l2 : List α}
    (h : a ∉ l1) : (l1 ++ l2).indexOf a = l1.length + l2.indexOf a := by
  induction l1 with
  | nil => simp
  | cons x xs ih =>
    have hx : x ≠ a := fun he => h (he ▸ List.mem_cons_self _ _)
    have hxs : a ∉ xs := fun hm => h (List.mem_cons_of_mem _ hm)
    rw [List.cons_append, List.indexOf_cons_ne _ hx, ih hxs]
    simp [List.length_cons, Nat.succ_add]

lemma indexOf_lt_of_pairwise {α : Type} [DecidableEq α] {R : α → α → Prop} :
    ∀ {l : List α}, l.Pairwise R → ∀ {a b}, a ∈ l → b ∈ l → ¬ R b a → a ≠ b →
      l.indexOf a < l.indexOf b := by
  intro l
  induction l with
  | nil =>
    intro _ a b ha
    simp at ha
  | cons x xs ih =>
    intro hp a b ha hb hnR hab
    have hhead : ∀ y ∈ xs, R x y := (List.pairwise_cons.mp hp).1
    have htail := (List.pairwise_cons.mp hp).2
    by_cases hax : a = x
    · subst hax
      have hbx : b ≠ a := fun he => hab he.symm
      have hbxs : b ∈ xs := by
        rcases List.mem_cons.mp hb with h' | h'
        · exact absurd h' (fun he => hbx he)
        · exact h'
      rw [List.indexOf_cons_self, List.indexOf_cons_ne _ (fun he => hbx he.symm)]
      exact Nat.succ_pos _
    · have haxs : a ∈ xs := by
        rcases List.mem_cons.mp ha with h' | h'
        · exact absurd h' hax
        · exact h'
      by_cases hbx : b = x
      · subst hbx
        exact absurd (hhead a haxs) hnR
      · have hbxs : b ∈ xs := by
          rcases List.mem_cons.mp hb with h' | h'
          · exact absurd h' hbx
          · exact h'
        rw [List.indexOf_cons_ne _ (fun he => hax he.symm),
          List.indexOf_cons_ne _ (fun he => hbx he.symm)]
        exact Nat.succ_lt_succ (ih htail haxs hbxs hnR hab)

lemma indexOf_map_create (l : List DBObject) (o : DBObject) :
    (l.map PlanAction.create).indexOf (PlanAction.create o) = l.indexOf o := by
  induction l with
  | nil => simp
  | cons x xs ih =>
    by_cases hx : x = o
    · subst hx
      simp [List.indexOf_cons_self]
    · have hne : PlanAction.create x ≠ PlanAction.create o := by
        intro he
        cases he
        exact hx rfl
      rw [List.map_cons, List.indexOf_cons_ne _ hne, List.indexOf_cons_ne _ hx, ih]

lemma indexOf_map_rep {l : List DBObject} (hn : (l.map representation).Nodup)
    {o : DBObject} (ho : o ∈ l) :
    (l.map representation).indexOf (representation o) = l.indexOf o := by
  induction l with
  | nil => simp at ho
  | cons x xs ih =>
    simp only [List.map_cons, List.nodup_cons] at hn
    by_cases hx : x = o
    · subst hx
      simp [List.indexOf_cons_self]
    · have hoxs : o ∈ xs := by
        rcases List.mem_cons.mp ho with h' | h'
        · exact absurd h'.symm hx
        · exact h'
      have hrep : representation x ≠ representation o := by
        intro he
        exact hn.1 (he ▸ List.mem_map_of_mem representation hoxs)
      rw [List.map_cons, List.indexOf_cons_ne _ hrep, List.indexOf_cons_ne _ hx,
        ih hn.2 hoxs]

end IndexLemmas

section SortLemmas

lemma sortByRank_perm (g : List (String × Nat)) (l : List DBObject) :
    (sortByRank g l).Perm l :=
  List.perm_insertionSort _ l

lemma sortByRank_pairwise (g : List (String × Nat)) (l : List DBObject) :
    (sortByRank g l).Pairwise (fun a b => rankOf g a ≤ rankOf g b) := by
  have h := @List.sorted_insertionSort DBObject
    (fun a b => rankOf g a ≤ rankOf g b) (fun a b => Nat.decLe _ _)
    ⟨fun a b => Nat.le_total _ _⟩ ⟨fun a b c => Nat.le_trans⟩ l
  exact h

lemma byName_values_nodup (l : List DBObject) :
    ((byName l).map (fun p => p.2)).Nodup := by
  have hk := byName_keys_nodup l
  have heq : (byName l).map (fun p => p.1) =
      ((byName l).map (fun p => p.2)).map representation := by
    rw [List.map_map]
    exact List.map_congr_left (fun p hp => byName_keyInv l p hp)
  rw [heq] at hk
  exact hk.of_map representation

end SortLemmas

lemma build_actions_eq (p n : List DBObject) (po no : List (DBObject × Nat))
    (h1 : checkOrdering (ordByName po) (byName p) = .ok ())
    (h2 : checkOrdering (ordByName no) (byName n) = .ok ()) :
    build_actions p po n no = .ok
      (createMigrateActions (byName p)
        (sortByRank (ordByName no) ((byName n).map (fun q => q.2))) ++
       destroyActions (byName n)
        (sortByRank (ordByName po) ((byName p).map (fun q => q.2)))) := by
  unfold build_actions
  simp only []
  rw [h1, h2]
  rfl

section ByNameNodup

lemma upsert_eq_append {α : Type} {m : List (String × α)} {k : String} {v : α}
    (h : lookupS m k = none) : upsert m k v = m ++ [(k, v)] := by
  induction m with
  | nil => simp [upsert]
  | cons q rest ih =>
    by_cases hq : q.1 = k
    · simp [lookupS, hq] at h
    · simp only [lookupS, if_neg hq] at h
      simp [upsert, if_neg hq, ih h]

lemma lookupS_append {α : Type} (m1 m2 : List (String × α)) (k : String) :
    lookupS (m1 ++ m2) k =
      match lookupS m1 k with
      | some v => some v
      | none => lookupS m2 k := by
  induction m1 with
  | nil => simp [lookupS]
  | cons q rest ih =>
    by_cases hq : q.1 = k
    · simp [lookupS, hq]
    · simp [lookupS, hq, ih]

lemma byName_fold_of_nodup (l : List DBObject) (m0 : List (String × DBObject))
    (hdis : ∀ o ∈ l, lookupS m0 (representation o) = none)
    (hn : (l.map representation).Nodup) :
    l.foldl (fun m o => upsert m (representation o) o) m0 =
      m0 ++ l.map (fun o => (representation o, o)) := by
  induction l generalizing m0 with
  | nil => simp
  | cons x xs ih =>
    simp only [List.map_cons, List.nodup_cons] at hn
    rw [List.foldl_cons, upsert_eq_append (hdis x (List.mem_cons_self _ _))]
    rw [ih (m0 ++ [(representation x, x)]) ?_ hn.2]
    · simp
    · intro o ho
      rw [lookupS_append]
      rw [hdis o (List.mem_cons_of_mem _ ho)]
      have hne : ¬ representation x = representation o := by
        intro he
        exact hn.1 (he ▸ List.mem_map_of_mem representation ho)
      simp [lookupS, hne]

lemma byName_of_nodup (l : List DBObject) (hn : (l.map representation).Nodup) :
    byName l = l.map (fun o => (representation o, o)) := by
  unfold byName
  rw [byName_fold_of_nodup l [] (fun o _ => rfl) hn]
  simp

lemma createMigrate_nil_prev (l : List DBObject) :
    createMigrateActions [] l = l.map PlanAction.create := by
  induction l with
  | nil => rfl
  | cons x xs ih => simp [createMigrateActions, List.filterMap_cons, lookupS] at ih ⊢; exact ih

end ByNameNodup

/-- C3: diffing any snapshot against itself, with a rank map whose key set
matches the snapshot, records no create, migrate or destroy call at all. -/
theorem claim_C3_self_diff_zero_actions (xs : List DBObject)
    (ord : List (DBObject × Nat))
    (hchk : checkOrdering (ordByName ord) (byName xs) = .ok ()) :
    build_actions xs ord xs ord = .ok [] := by
  rw [build_actions_eq xs xs ord ord hchk hchk]
  have hself : ∀ o ∈ (byName xs).map (fun p => p.2),
      lookupS (byName xs) (representation o) = some o := by
    intro o ho
    rcases List.mem_map.mp ho with ⟨q, hq, hq2⟩
    have hk : q.1 = representation q.2 := byName_keyInv xs q hq
    have hmem : (representation o, o) ∈ byName xs := by
      rw [← hq2, ← hk]
      exact hq
    exact lookupS_eq_some_of_mem (byName_keys_nodup xs) hmem
  have hsortmem : ∀ o ∈ sortByRank (ordByName ord) ((byName xs).map (fun p => p.2)),
      lookupS (byName xs) (representation o) = some o := by
    intro o ho
    exact hself o ((sortByRank_perm _ _).mem_iff.mp ho)
  have hcm : createMigrateActions (byName xs)
      (sortByRank (ordByName ord) ((byName xs).map (fun q => q.2))) = [] := by
    unfold createMigrateActions
    rw [List.filterMap_eq_nil_iff]
    intro o ho
    rw [hsortmem o ho]
    simp
  have hd : destroyActions (byName xs)
      (sortByRank (ordByName ord) ((byName xs).map (fun q => q.2))) = [] := by
    unfold destroyActions
    have : (sortByRank (ordByName ord) ((byName xs).map (fun q => q.2))).filter
        (fun p => lookupS (byName xs) (representation p) = none) = [] := by
      rw [List.filter_eq_nil_iff]
      intro o ho
      rw [hsortmem o ho]
      simp
    rw [this]
    rfl
  rw [hcm, hd]
  rfl

/-- C3 witness: a one-table snapshot diffed against itself yields the
empty action list. -/
theorem claim_C3_witness :
    checkOrdering (ordByName [(DBObject.table "t", 0)])
      (byName [DBObject.table "t"]) = .ok () ∧
    build_actions [DBObject.table "t"] [(DBObject.table "t", 0)]
      [DBObject.table "t"] [(DBObject.table "t", 0)] = .ok [] :=
  ⟨rfl, claim_C3_self_diff_zero_actions [DBObject.table "t"]
    [(DBObject.table "t", 0)] rfl⟩

/-- C1: diffing an empty previous state against a next snapshot (with
distinct representations and a rank map matching it) emits exactly one
create call per object and no migrate or destroy call, in ascending rank
order; consequently, for any dependency relation the rank map respects
(tables ranked before their columns, columns before the constraints that
cover them), every object's dependencies are created before the object
itself. -/
theorem claim_C1_from_scratch_creates (next : List DBObject)
    (nextOrd : List (DBObject × Nat))
    (hnodup : (next.map representation).Nodup)
    (hchk : checkOrdering (ordByName nextOrd) (byName next) = .ok ()) :
    ∃ acts, build_actions [] [] next nextOrd = .ok acts ∧
      acts.Perm (next.map PlanAction.create) ∧
      (∀ a ∈ acts, ∃ o, o ∈ next ∧ a = PlanAction.create o) ∧
      (∀ o1 o2, o1 ∈ next → o2 ∈ next →
        rankOf (ordByName nextOrd) o1 < rankOf (ordByName nextOrd) o2 →
        acts.indexOf (PlanAction.create o1) < acts.indexOf (PlanAction.create o2)) ∧
      (∀ deps : DBObject → DBObject → Prop,
        (∀ a b, deps a b →
          rankOf (ordByName nextOrd) a < rankOf (ordByName nextOrd) b) →
        ∀ o1 o2, o1 ∈ next → o2 ∈ next → deps o1 o2 →
        acts.indexOf (PlanAction.create o1) <
          acts.indexOf (PlanAction.create o2)) := by
  have h0 : checkOrdering (ordByName ([] : List (DBObject × Nat)))
      (byName ([] : List DBObject)) = .ok () := rfl
  have hba := build_actions_eq [] next ([] : List (DBObject × Nat)) nextOrd h0 hchk
  have hvals : (byName next).map (fun q => q.2) = next := by
    rw [byName_of_nodup next hnodup, List.map_map]
    have hcomp : ((fun q : String × DBObject => q.2) ∘
        fun o => (representation o, o)) = id := rfl
    rw [hcomp, List.map_id]
  rw [hvals] at hba
  have hba2 : build_actions [] [] next nextOrd = .ok
      (createMigrateActions []
        (sortByRank (ordByName nextOrd) next) ++ []) := hba
  rw [List.append_nil, createMigrate_nil_prev] at hba2
  have hba := hba2
  refine ⟨_, hba, ?_, ?_, ?_, ?_⟩
  · exact List.Perm.map PlanAction.create (sortByRank_perm _ _)
  · intro a ha
    rcases List.mem_map.mp ha with ⟨o, ho, rfl⟩
    exact ⟨o, (sortByRank_perm _ _).mem_iff.mp ho, rfl⟩
  · intro o1 o2 h1 h2 hlt
    rw [indexOf_map_create, indexOf_map_create]
    have hm1 : o1 ∈ sortByRank (ordByName nextOrd) next :=
      (sortByRank_perm _ _).mem_iff.mpr h1
    have hm2 : o2 ∈ sortByRank (ordByName nextOrd) next :=
      (sortByRank_perm _ _).mem_iff.mpr h2
    refine indexOf_lt_of_pairwise (sortByRank_pairwise _ _) hm1 hm2 ?_ ?_
    · exact fun hle => absurd hlt (Nat.not_lt.mpr hle)
    · intro he
      rw [he] at hlt
      exact Nat.lt_irrefl _ hlt
  · intro deps hvalid o1 o2 h1 h2 hd
    have hlt := hvalid o1 o2 hd
    rw [indexOf_map_create, indexOf_map_create]
    have hm1 : o1 ∈ sortByRank (ordByName nextOrd) next :=
      (sortByRank_perm _ _).mem_iff.mpr h1
    have hm2 : o2 ∈ sortByRank (ordByName nextOrd) next :=
      (sortByRank_perm _ _).mem_iff.mpr h2
    refine indexOf_lt_of_pairwise (sortByRank_pairwise _ _) hm1 hm2 ?_ ?_
    · exact fun hle => absurd hlt (Nat.not_lt.mpr hle)
    · intro he
      rw [he] at hlt
      exact Nat.lt_irrefl _ hlt

/-- C1 witness: a table and one of its columns, ranked 0 and 1, are both
created (and only created), the table first. -/
theorem claim_C1_witness :
    ((([DBObject.table "t",
        DBObject.column "t" "c" (.primitive .INTEGER) false false] :
          List DBObject).map representation).Nodup ∧
      checkOrdering
        (ordByName [(DBObject.table "t", 0),
          (DBObject.column "t" "c" (.primitive .INTEGER) false false, 1)])
        (byName [DBObject.table "t",
          DBObject.column "t" "c" (.primitive .INTEGER) false false]) = .ok ()) ∧
    ∃ acts,
      build_actions [] []
        [DBObject.table "t",
          DBObject.column "t" "c" (.primitive .INTEGER) false false]
        [(DBObject.table "t", 0),
          (DBObject.column "t" "c" (.primitive .INTEGER) false false, 1)] =
        .ok acts ∧
      acts.Perm
        ([DBObject.table "t",
          DBObject.column "t" "c" (.primitive .INTEGER) false false].map
          PlanAction.create) ∧
      (∀ a ∈ acts, ∃ o,
        o ∈ [DBObject.table "t",
          DBObject.column "t" "c" (.primitive .INTEGER) false false] ∧
        a = PlanAction.create o) ∧
      (∀ o1 o2,
        o1 ∈ [DBObject.table "t",
          DBObject.column "t" "c" (.primitive .INTEGER) false false] →
        o2 ∈ [DBObject.table "t",
          DBObject.column "t" "c" (.primitive .INTEGER) false false] →
        rankOf (ordByName [(DBObject.table "t", 0),
          (DBObject.column "t" "c" (.primitive .INTEGER) false false, 1)]) o1 <
          rankOf (ordByName [(DBObject.table "t", 0),
            (DBObject.column "t" "c" (.primitive .INTEGER) false false, 1)]) o2 →
        acts.indexOf (PlanAction.create o1) <
          acts.indexOf (PlanAction.create o2)) ∧
      (∀ deps : DBObject → DBObject → Prop,
        (∀ a b, deps a b →
          rankOf (ordByName [(DBObject.table "t", 0),
            (DBObject.column "t" "c" (.primitive .INTEGER) false false, 1)]) a <
            rankOf (ordByName [(DBObject.table "t", 0),
              (DBObject.column "t" "c" (.primitive .INTEGER) false false, 1)]) b) →
        ∀ o1 o2,
          o1 ∈ [DBObject.table "t",
            DBObject.column "t" "c" (.primitive .INTEGER) false false] →
          o2 ∈ [DBObject.table "t",
            DBObject.column "t" "c" (.primitive .INTEGER) false false] →
          deps o1 o2 →
          acts.indexOf (PlanAction.create o1) <
            acts.indexOf (PlanAction.create o2)) :=
  ⟨⟨by decide, rfl⟩,
    claim_C1_from_scratch_creates _ _ (by decide) rfl⟩

section CheckLemmas

lemma checkOrdering_of_false {ordering : List (String × Nat)}
    {objects : List (String × DBObject)}
    (h : sameKeySet (ordering.map (fun p => p.1))
      (objects.map (fun p => p.1)) = false) :
    checkOrdering ordering objects = .error (.orderingMismatch
      (mismatchKeys (ordering.map (fun p => p.1))
        (objects.map (fun p => p.1)))) := by
  unfold checkOrdering
  rw [h]
  rfl

lemma checkOrdering_error_shape {ordering : List (String × Nat)}
    {objects : List (String × DBObject)} {e : SerializerError}
    (h : checkOrdering ordering objects = .error e) :
    ∃ ks, e = .orderingMismatch ks := by
  unfold checkOrdering at h
  by_cases hc : sameKeySet (ordering.map (fun p => p.1))
      (objects.map (fun p => p.1)) = true
  · rw [hc] at h
    simp at h
  · rw [Bool.not_eq_true] at hc
    rw [hc] at h
    simp at h
    exact ⟨_, h.symm⟩

lemma build_actions_err_first {p n : List DBObject}
    {po no : List (DBObject × Nat)} {e : SerializerError}
    (hc : checkOrdering (ordByName po) (byName p) = .error e) :
    build_actions p po n no = .error e := by
  unfold build_actions
  simp only []
  rw [hc]
  rfl

lemma build_actions_err_second {p n : List DBObject}
    {po no : List (DBObject × Nat)} {e : SerializerError}
    (h1 : checkOrdering (ordByName po) (byName p) = .ok ())
    (hc : checkOrdering (ordByName no) (byName n) = .error e) :
    build_actions p po n no = .error e := by
  unfold build_actions
  simp only []
  rw [h1, hc]
  rfl

end CheckLemmas

/-- C8: whenever the key set of either rank map differs (as a set,
compared by representation) from the representation set of the
corresponding object list, `build_actions` fails with the
ordering-mismatch error; no action list is produced, so the error
precedes every create, migrate and destroy call. -/
theorem claim_C8_ordering_mismatch_fatal (p n : List DBObject)
    (po no : List (DBObject × Nat))
    (h : sameKeySet ((ordByName po).map (fun q => q.1))
        ((byName p).map (fun q => q.1)) = false ∨
      sameKeySet ((ordByName no).map (fun q => q.1))
        ((byName n).map (fun q => q.1)) = false) :
    ∃ ks, build_actions p po n no = .error (.orderingMismatch ks) := by
  rcases h with h | h
  · exact ⟨_, build_actions_err_first (checkOrdering_of_false h)⟩
  · cases hc : checkOrdering (ordByName po) (byName p) with
    | error e =>
      rcases checkOrdering_error_shape hc with ⟨ks, rfl⟩
      exact ⟨ks, build_actions_err_first hc⟩
    | ok u =>
      cases u
      exact ⟨_, build_actions_err_second hc (checkOrdering_of_false h)⟩

/-- C8 witness: a previous snapshot holding one table but an empty
previous rank map is rejected with the ordering-mismatch error. -/
theorem claim_C8_witness :
    sameKeySet ((ordByName ([] : List (DBObject × Nat))).map (fun q => q.1))
      ((byName [DBObject.table "t"]).map (fun q => q.1)) = false ∧
    ∃ ks, build_actions [DBObject.table "t"] [] [] [] =
      .error (.orderingMismatch ks) :=
  ⟨rfl, claim_C8_ordering_mismatch_fatal [DBObject.table "t"] [] [] []
    (Or.inl rfl)⟩

/-- The objects of the destroy calls of an action list, in call order. -/
def destroysOf (acts : List PlanAction) : List DBObject :=
  acts.filterMap
    (fun a =>
      match a with
      | .destroy o => some o
      | _ => none)

section DestroyLemmas

lemma destroysOf_createMigrate (pm : List (String × DBObject))
    (l : List DBObject) : destroysOf (createMigrateActions pm l) = [] := by
  unfold destroysOf
  rw [List.filterMap_eq_nil_iff]
  intro a ha
  rcases List.mem_filterMap.mp ha with ⟨o, _, hfo⟩
  cases hlo : lookupS pm (representation o) with
  | none =>
    rw [hlo] at hfo
    simp at hfo
    rw [← hfo]
  | some q =>
    rw [hlo] at hfo
    by_cases hne : q ≠ o
    · simp [hne] at hfo
      rw [← hfo]
    · simp [hne] at hfo

lemma destroysOf_destroyActions (nm : List (String × DBObject))
    (l : List DBObject) :
    destroysOf (destroyActions nm l) =
      (l.filter (fun q => lookupS nm (representation q) = none)).reverse := by
  unfold destroysOf destroyActions
  rw [List.filterMap_map]
  have : ((fun a =>
      match a with
      | PlanAction.destroy o => some o
      | _ => none) ∘ PlanAction.destroy) = some := rfl
  rw [this, List.filterMap_some]

lemma mem_destroysOf {acts : List PlanAction} {o : DBObject} :
    PlanAction.destroy o ∈ acts ↔ o ∈ destroysOf acts := by
  constructor
  · intro h
    exact List.mem_filterMap.mpr ⟨PlanAction.destroy o, h, rfl⟩
  · intro h
    rcases List.mem_filterMap.mp h with ⟨a, ha, hfa⟩
    cases a with
    | destroy q =>
      simp at hfa
      rw [← hfa]
      exact ha
    | create q => simp at hfa
    | migrate q1 q2 => simp at hfa

end DestroyLemmas

/-- C4: with matching rank maps, every previous object whose
representation is absent from the next snapshot receives a destroy call
(and only such objects do), and the destroy pass runs in descending
previous rank — in particular an object of strictly higher previous rank
(such as a foreign-key constraint covering a removed table) is destroyed
strictly before an object it depends on (the table itself). -/
theorem claim_C4_destroy_pass (p n : List DBObject)
    (po no : List (DBObject × Nat))
    (h1 : checkOrdering (ordByName po) (byName p) = .ok ())
    (h2 : checkOrdering (ordByName no) (byName n) = .ok ()) :
    ∃ acts, build_actions p po n no = .ok acts ∧
      (∀ q ∈ p, lookupS (byName n) (representation q) = none →
        ∃ q', PlanAction.destroy q' ∈ acts ∧
          representation q' = representation q) ∧
      (∀ q', PlanAction.destroy q' ∈ acts →
        q' ∈ p ∧ lookupS (byName n) (representation q') = none) ∧
      (destroysOf acts).Pairwise
        (fun a b => rankOf (ordByName po) b ≤ rankOf (ordByName po) a) ∧
      (∀ a b, PlanAction.destroy a ∈ acts → PlanAction.destroy b ∈ acts →
        rankOf (ordByName po) a < rankOf (ordByName po) b →
        (destroysOf acts).indexOf b < (destroysOf acts).indexOf a) := by
  have hba := build_actions_eq p n po no h1 h2
  set sortedPrev := sortByRank (ordByName po) ((byName p).map (fun q => q.2))
    with hsp
  set acts := createMigrateActions (byName p)
      (sortByRank (ordByName no) ((byName n).map (fun q => q.2))) ++
    destroyActions (byName n) sortedPrev with hacts
  have hda : destroysOf acts =
      (sortedPrev.filter
        (fun q => lookupS (byName n) (representation q) = none)).reverse := by
    rw [hacts]
    unfold destroysOf
    rw [List.filterMap_append]
    have h1' := destroysOf_createMigrate (byName p)
      (sortByRank (ordByName no) ((byName n).map (fun q => q.2)))
    have h2' := destroysOf_destroyActions (byName n) sortedPrev
    unfold destroysOf at h1' h2'
    rw [h1', h2', List.nil_append]
  have hprevnodup : sortedPrev.Nodup :=
    (sortByRank_perm _ _).symm.nodup (byName_values_nodup p)
  have hDnodup : (destroysOf acts).Nodup := by
    rw [hda, List.nodup_reverse]
    exact List.Nodup.sublist (List.filter_sublist _) hprevnodup
  refine ⟨acts, hba, ?_, ?_, ?_, ?_⟩
  · intro q hq hnone
    rcases lookupS_isSome_of_mem_keys (mem_keys_byName hq) with ⟨q', hq'⟩
    have hmem : (representation q, q') ∈ byName p := mem_of_lookupS_eq_some hq'
    have hrep : representation q = representation q' := byName_keyInv p _ hmem
    refine ⟨q', ?_, hrep.symm⟩
    rw [mem_destroysOf, hda]
    rw [List.mem_reverse, List.mem_filter]
    constructor
    · exact (sortByRank_perm _ _).mem_iff.mpr
        (List.mem_map.mpr ⟨(representation q, q'), hmem, rfl⟩)
    · rw [← hrep]
      simp [hnone]
  · intro q' hq'
    rw [mem_destroysOf, hda, List.mem_reverse, List.mem_filter] at hq'
    refine ⟨?_, ?_⟩
    · have := (sortByRank_perm _ _).mem_iff.mp hq'.1
      rcases List.mem_map.mp this with ⟨r, hr, hr2⟩
      exact hr2 ▸ byName_values_mem p r hr
    · exact of_decide_eq_true hq'.2
  · rw [hda]
    rw [List.pairwise_reverse]
    exact List.Pairwise.filter _ (sortByRank_pairwise _ _)
  · intro a b ha hb hlt
    rw [mem_destroysOf] at ha hb
    have hp : (destroysOf acts).Pairwise
        (fun x y => rankOf (ordByName po) y ≤ rankOf (ordByName po) x) := by
      rw [hda, List.pairwise_reverse]
      exact List.Pairwise.filter _ (sortByRank_pairwise _ _)
    refine indexOf_lt_of_pairwise hp hb ha ?_ ?_
    · exact fun hle => absurd hlt (Nat.not_lt.mpr hle)
    · intro he
      rw [he] at hlt
      exact Nat.lt_irrefl _ hlt

/-- Removed-table scenario for the destroy pass: table `a` (rank 0) and a
foreign-key constraint on table `b` targeting `a` (rank 1), both absent
from the next snapshot. -/
def fkScenarioPrev : List DBObject :=
  [DBObject.table "a",
   DBObject.constraint "b" .FOREIGN_KEY ["x"] "b_x_fkey"
     (some ⟨"a", ["id"]⟩) none]

/-- Rank map of the removed-table scenario. -/
def fkScenarioOrd : List (DBObject × Nat) :=
  [(DBObject.table "a", 0),
   (DBObject.constraint "b" .FOREIGN_KEY ["x"] "b_x_fkey"
     (some ⟨"a", ["id"]⟩) none, 1)]

/-- C4 witness: dropping both the table and the foreign-key constraint
that targets it destroys the higher-ranked constraint strictly before the
table. -/
theorem claim_C4_witness :
    (checkOrdering (ordByName fkScenarioOrd) (byName fkScenarioPrev) = .ok () ∧
      checkOrdering (ordByName ([] : List (DBObject × Nat)))
        (byName ([] : List DBObject)) = .ok ()) ∧
    ∃ acts, build_actions fkScenarioPrev fkScenarioOrd [] [] = .ok acts ∧
      (∀ q ∈ fkScenarioPrev,
        lookupS (byName ([] : List DBObject)) (representation q) = none →
        ∃ q', PlanAction.destroy q' ∈ acts ∧
          representation q' = representation q) ∧
      (∀ q', PlanAction.destroy q' ∈ acts →
        q' ∈ fkScenarioPrev ∧
        lookupS (byName ([] : List DBObject)) (representation q') = none) ∧
      (destroysOf acts).Pairwise
        (fun a b => rankOf (ordByName fkScenarioOrd) b ≤
          rankOf (ordByName fkScenarioOrd) a) ∧
      (∀ a b, PlanAction.destroy a ∈ acts → PlanAction.destroy b ∈ acts →
        rankOf (ordByName fkScenarioOrd) a < rankOf (ordByName fkScenarioOrd) b →
        (destroysOf acts).indexOf b < (destroysOf acts).indexOf a) :=
  ⟨⟨rfl, rfl⟩, claim_C4_destroy_pass fkScenarioPrev [] fkScenarioOrd [] rfl rfl⟩

/-- Representation a recorded call is about: the created, migrated-to or
destroyed object's identity key. -/
def actionRep : PlanAction → String
  | .create o => representation o
  | .migrate _ o => representation o
  | .destroy o => representation o

section DedupLemmas

lemma lookupS_byName_self {l : List DBObject} {o : DBObject}
    (h : o ∈ (byName l).map (fun p => p.2)) :
    lookupS (byName l) (representation o) = some o := by
  rcases List.mem_map.mp h with ⟨q, hq, hq2⟩
  have hk : q.1 = representation q.2 := byName_keyInv l q hq
  have hmem : (representation o, o) ∈ byName l := by
    rw [← hq2, ← hk]
    exact hq
  exact lookupS_eq_some_of_mem (byName_keys_nodup l) hmem

lemma mem_createMigrate {pm : List (String × DBObject)} {l : List DBObject}
    {a : PlanAction} :
    a ∈ createMigrateActions pm l ↔
      ∃ o ∈ l,
        (lookupS pm (representation o) = none ∧ a = .create o) ∨
        (∃ q, lookupS pm (representation o) = some q ∧ q ≠ o ∧
          a = .migrate q o) := by
  unfold createMigrateActions
  rw [List.mem_filterMap]
  constructor
  · rintro ⟨o, ho, hfo⟩
    refine ⟨o, ho, ?_⟩
    cases hlo : lookupS pm (representation o) with
    | none =>
      rw [hlo] at hfo
      simp at hfo
      exact Or.inl ⟨rfl, hfo.symm⟩
    | some q =>
      rw [hlo] at hfo
      by_cases hne : q ≠ o
      · simp [hne] at hfo
        exact Or.inr ⟨q, rfl, hne, hfo.symm⟩
      · simp [hne] at hfo
  · rintro ⟨o, ho, hcase⟩
    refine ⟨o, ho, ?_⟩
    rcases hcase with ⟨hnone, rfl⟩ | ⟨q, hsome, hne, rfl⟩
    · rw [hnone]
    · rw [hsome]
      simp [hne]

lemma mem_destroyActions {nm : List (String × DBObject)} {l : List DBObject}
    {a : PlanAction} :
    a ∈ destroyActions nm l ↔
      ∃ o, a = .destroy o ∧
        o ∈ (l.filter
          (fun q => lookupS nm (representation q) = none)).reverse := by
  unfold destroyActions
  rw [List.mem_map]
  constructor
  · rintro ⟨o, ho, rfl⟩
    exact ⟨o, rfl, ho⟩
  · rintro ⟨o, rfl, ho⟩
    exact ⟨o, ho, rfl⟩

lemma map_actionRep_createMigrate (pm : List (String × DBObject)) :
    ∀ l : List DBObject,
      ((createMigrateActions pm l).map actionRep).Sublist
        (l.map representation)
  | [] => List.Sublist.refl _
  | x :: xs => by
    unfold createMigrateActions
    rw [List.filterMap_cons]
    cases hlo : lookupS pm (representation x) with
    | none =>
      simp only []
      rw [List.map_cons, List.map_cons]
      exact List.Sublist.cons₂ _ (map_actionRep_createMigrate pm xs)
    | some q =>
      by_cases hne : q ≠ x
      · simp only [hne, if_pos hne]
        rw [List.map_cons, List.map_cons]
        exact List.Sublist.cons₂ _ (map_actionRep_createMigrate pm xs)
      · simp only [hne, if_neg hne]
        rw [List.map_cons]
        exact List.Sublist.cons _ (map_actionRep_createMigrate pm xs)

lemma count_le_one_of_nodup_map {l : List PlanAction}
    (h : (l.map actionRep).Nodup) (r : String) :
    (l.filter (fun a => actionRep a == r)).length ≤ 1 := by
  induction l with
  | nil => simp
  | cons a rest ih =>
    simp only [List.map_cons, List.nodup_cons] at h
    cases hb : (actionRep a == r) with
    | false =>
      rw [List.filter_cons_of_neg (by simp [hb])]
      exact ih h.2
    | true =>
      have har : actionRep a = r := by simpa using hb
      rw [List.filter_cons_of_pos (by simp [hb])]
      have hrest : rest.filter (fun x => actionRep x == r) = [] := by
        rw [List.filter_eq_nil_iff]
        intro x hx hbx
        have : actionRep x = r := by simpa using hbx
        exact h.1 (har ▸ this ▸ List.mem_map_of_mem actionRep hx)
      rw [hrest]
      simp

end DedupLemmas

/-- C10: when either snapshot holds several objects of the same
representation, `build_actions` retains only the last object in list
order for each representation and emits at most one create, migrate or
destroy call per representation. -/
theorem claim_C10_duplicates_last_wins (p n : List DBObject)
    (po no : List (DBObject × Nat))
    (h1 : checkOrdering (ordByName po) (byName p) = .ok ())
    (h2 : checkOrdering (ordByName no) (byName n) = .ok ()) :
    ∃ acts, build_actions p po n no = .ok acts ∧
      (∀ r, (acts.filter (fun a => actionRep a == r)).length ≤ 1) ∧
      (∀ o, PlanAction.create o ∈ acts →
        lastOcc n (representation o) = some o) ∧
      (∀ q o, PlanAction.migrate q o ∈ acts →
        lastOcc p (representation o) = some q ∧
        lastOcc n (representation o) = some o) ∧
      (∀ o, PlanAction.destroy o ∈ acts →
        lastOcc p (representation o) = some o) := by
  have hba := build_actions_eq p n po no h1 h2
  set sortedPrev := sortByRank (ordByName po) ((byName p).map (fun q => q.2))
    with hsp
  set sortedNext := sortByRank (ordByName no) ((byName n).map (fun q => q.2))
    with hsn
  set acts := createMigrateActions (byName p) sortedNext ++
    destroyActions (byName n) sortedPrev with hacts
  have hnextmem : ∀ o ∈ sortedNext, o ∈ (byName n).map (fun q => q.2) :=
    fun o ho => (sortByRank_perm _ _).mem_iff.mp ho
  have hprevmem : ∀ o ∈ sortedPrev, o ∈ (byName p).map (fun q => q.2) :=
    fun o ho => (sortByRank_perm _ _).mem_iff.mp ho
  refine ⟨acts, hba, ?_, ?_, ?_, ?_⟩
  · intro r
    apply count_le_one_of_nodup_map
    rw [hacts, List.map_append, List.nodup_append]
    have hnextreps : (sortedNext.map representation).Nodup := by
      have hperm : (sortedNext.map representation).Perm
          (((byName n).map (fun q => q.2)).map representation) :=
        List.Perm.map representation (sortByRank_perm _ _)
      refine hperm.symm.nodup ?_
      have heq : ((byName n).map (fun q => q.2)).map representation =
          (byName n).map (fun q => q.1) := by
        rw [List.map_map]
        exact (List.map_congr_left
          (fun q hq => (byName_keyInv n q hq).symm))
      rw [heq]
      exact byName_keys_nodup n
    have hprevreps : (sortedPrev.map representation).Nodup := by
      have hperm : (sortedPrev.map representation).Perm
          (((byName p).map (fun q => q.2)).map representation) :=
        List.Perm.map representation (sortByRank_perm _ _)
      refine hperm.symm.nodup ?_
      have heq : ((byName p).map (fun q => q.2)).map representation =
          (byName p).map (fun q => q.1) := by
        rw [List.map_map]
        exact (List.map_congr_left
          (fun q hq => (byName_keyInv p q hq).symm))
      rw [heq]
      exact byName_keys_nodup p
    refine ⟨?_, ?_, ?_⟩
    · exact List.Nodup.sublist (map_actionRep_createMigrate _ _) hnextreps
    · have heq : (destroyActions (byName n) sortedPrev).map actionRep =
          ((sortedPrev.filter
            (fun q => lookupS (byName n) (representation q) = none)).reverse).map
            representation := by
        unfold destroyActions
        rw [List.map_map]
        rfl
      rw [heq, List.map_reverse, List.nodup_reverse]
      exact List.Nodup.sublist
        (List.Sublist.map representation (List.filter_sublist _)) hprevreps
    · intro r hr1 hr2
      rcases List.mem_map.mp hr1 with ⟨a, ha, rfl⟩
      rcases List.mem_map.mp hr2 with ⟨a', ha', hrep'⟩
      rcases mem_createMigrate.mp ha with ⟨o, ho, hcase⟩
      have hsome : lookupS (byName n) (representation o) = some o :=
        lookupS_byName_self (hnextmem o ho)
      have harep : actionRep a = representation o := by
        rcases hcase with ⟨_, rfl⟩ | ⟨q, _, _, rfl⟩ <;> rfl
      rcases mem_destroyActions.mp ha' with ⟨o', rfl, ho'⟩
      rw [List.mem_reverse, List.mem_filter] at ho'
      have hnone : lookupS (byName n) (representation o') = none :=
        of_decide_eq_true ho'.2
      have : representation o' = representation o := by
        rw [← harep]
        exact hrep'
      rw [this, hsome] at hnone
      simp at hnone
  · intro o ho
    rw [hacts, List.mem_append] at ho
    rcases ho with ho | ho
    · rcases mem_createMigrate.mp ho with ⟨o', ho', hcase⟩
      rcases hcase with ⟨hnone, he⟩ | ⟨q, _, _, he⟩
      · cases he
        rw [← lookupS_byName]
        exact lookupS_byName_self (hnextmem _ ho')
      · cases he
    · rcases mem_destroyActions.mp ho with ⟨o', he, _⟩
      cases he
  · intro q o ho
    rw [hacts, List.mem_append] at ho
    rcases ho with ho | ho
    · rcases mem_createMigrate.mp ho with ⟨o', ho', hcase⟩
      rcases hcase with ⟨_, he⟩ | ⟨q', hsome, _, he⟩
      · cases he
      · cases he
        constructor
        · rw [← lookupS_byName]
          exact hsome
        · rw [← lookupS_byName]
          exact lookupS_byName_self (hnextmem _ ho')
    · rcases mem_destroyActions.mp ho with ⟨o', he, _⟩
      cases he
  · intro o ho
    rw [hacts, List.mem_append] at ho
    rcases ho with ho | ho
    · rcases mem_createMigrate.mp ho with ⟨o', _, hcase⟩
      rcases hcase with ⟨_, he⟩ | ⟨q', _, _, he⟩ <;> cases he
    · rcases mem_destroyActions.mp ho with ⟨o', he, ho'⟩
      cases he
      rw [List.mem_reverse, List.mem_filter] at ho'
      rw [← lookupS_byName]
      exact lookupS_byName_self (hprevmem _ ho'.1)

/-- C10 witness: two objects sharing representation `t` in the next
snapshot produce a single create call carrying the later of the two. -/
theorem claim_C10_witness :
    (checkOrdering (ordByName ([] : List (DBObject × Nat)))
        (byName ([] : List DBObject)) = .ok () ∧
      checkOrdering
        (ordByName [(DBObject.typ "t" ["A"] [], 0)])
        (byName [DBObject.typ "t" ["A"] [("x", "c")],
          DBObject.typ "t" ["A"] []]) = .ok ()) ∧
    ∃ acts, build_actions [] []
        [DBObject.typ "t" ["A"] [("x", "c")], DBObject.typ "t" ["A"] []]
        [(DBObject.typ "t" ["A"] [], 0)] = .ok acts ∧
      (∀ r, (acts.filter (fun a => actionRep a == r)).length ≤ 1) ∧
      (∀ o, PlanAction.create o ∈ acts →
        lastOcc [DBObject.typ "t" ["A"] [("x", "c")],
          DBObject.typ "t" ["A"] []] (representation o) = some o) ∧
      (∀ q o, PlanAction.migrate q o ∈ acts →
        lastOcc ([] : List DBObject) (representation o) = some q ∧
        lastOcc [DBObject.typ "t" ["A"] [("x", "c")],
          DBObject.typ "t" ["A"] []] (representation o) = some o) ∧
      (∀ o, PlanAction.destroy o ∈ acts →
        lastOcc ([] : List DBObject) (representation o) = some o) :=
  ⟨⟨rfl, rfl⟩,
    claim_C10_duplicates_last_wins [] _ [] _ rfl rfl⟩

/-- C9: a column whose annotation falls into the JSON-like fallback
category is rejected with the explicit-opt-in configuration error unless
the field sets `is_json`; with the opt-in it is classified as the JSON
primitive type (no custom type, not a list). -/
theorem claim_C9_json_opt_in (key : String) (info : FieldDesc)
    (table : TableDesc) (d : String) (ann : AnnotT)
    (hann : info.annot = some ann) (hcore : ann.core = .jsonFallback d) :
    handle_column_type key info table =
      (if info.is_json then .ok ⟨some .JSON, none, false⟩
       else .error (.valueError
         ("JSON fields must have Field(is_json=True) specified: " ++ d))) := by
  obtain ⟨core, hnull⟩ := ann
  simp only [] at hcore
  subst hcore
  unfold handle_column_type
  rw [hann]

/-- C9 witness: a dict-typed field without the opt-in errors, and the same
field with `is_json=True` is classified as JSON. -/
theorem claim_C9_witness :
    handle_column_type "payload"
      ⟨some ⟨.jsonFallback "dict[str, str]", false⟩, false, false, false,
        none, none, false, none⟩
      ⟨"m", [], none⟩ =
      .error (.valueError
        ("JSON fields must have Field(is_json=True) specified: dict[str, str]")) ∧
    handle_column_type "payload"
      ⟨some ⟨.jsonFallback "dict[str, str]", false⟩, false, false, false,
        none, none, true, none⟩
      ⟨"m", [], none⟩ = .ok ⟨some .JSON, none, false⟩ := by
  constructor
  · have h := claim_C9_json_opt_in "payload"
      ⟨some ⟨.jsonFallback "dict[str, str]", false⟩, false, false, false,
        none, none, false, none⟩
      ⟨"m", [], none⟩ "dict[str, str]"
      ⟨.jsonFallback "dict[str, str]", false⟩ rfl rfl
    simpa using h
  · have h := claim_C9_json_opt_in "payload"
      ⟨some ⟨.jsonFallback "dict[str, str]", false⟩, false, false, false,
        none, none, true, none⟩
      ⟨"m", [], none⟩ "dict[str, str]"
      ⟨.jsonFallback "dict[str, str]", false⟩ rfl rfl
    simpa using h

/-- Table descriptor of the enum-assignment scenario: `examplemodel1` with
a UUID primary key and a field of the shared enumerated type
`CommonEnum`. -/
def exampleModel1 : TableDesc :=
  ⟨"examplemodel1",
    [("id", ⟨some ⟨.prim .pyUUID, false⟩, true, false, false, none, none,
      false, none⟩),
     ("value", ⟨some ⟨.enumAnn "CommonEnum" ["A", "B"], false⟩, false, false,
      false, none, none, false, none⟩)],
    none⟩

/-- Whether an emitted pair carries a Type node. -/
def isTypePair (p : DBObject × List DBObject) : Bool :=
  match p.1 with
  | .typ _ _ _ => true
  | _ => false

/-- C6 (code bug): the declarative extractor emits the enumerated Type
node with an empty dependency list — `force_no_dependencies` suppresses
the ambient table dependency and nothing re-attaches the introducing
table.  The repository's own test (`test_enum_column_assignment`) asserts
the Type node's dependencies are exactly `[DBTable "examplemodel1"]`, and
the spec requires the node to anchor to the table that first introduced
it; the code as written satisfies neither. -/
theorem claim_C6_type_node_deps_empty :
    (convert [exampleModel1]).map (fun ps => ps.filter isTypePair) =
      .ok [(.typ "commonenum" ["A", "B"] [("examplemodel1", "value")], [])] :=
  rfl

/-- First table of the duplicate-enum scenario. -/
def model1C5 : TableDesc :=
  ⟨"model1",
    [("id", ⟨some ⟨.prim .pyInt, false⟩, true, false, false, none, none,
      false, none⟩),
     ("value", ⟨some ⟨.enumAnn "EnumValues" ["A", "B"], false⟩, false, false,
      false, none, none, false, none⟩)],
    none⟩

/-- Second table of the duplicate-enum scenario, declaring a field of the
same enumerated type. -/
def model2C5 : TableDesc :=
  ⟨"model2",
    [("id", ⟨some ⟨.prim .pyInt, false⟩, true, false, false, none, none,
      false, none⟩),
     ("value", ⟨some ⟨.enumAnn "EnumValues" ["A", "B"], false⟩, false, false,
      false, none, none, false, none⟩)],
    none⟩

/-- The Type object of a create call, when the call creates a Type. -/
def typeCreateObj : PlanAction → Option DBObject
  | .create (.typ n v r) => some (.typ n v r)
  | _ => none

/-- The canonical map the normalizer builds for the duplicate-enum
scenario. -/
def dupEnumByName : Except SerializerError (List (String × DBObject)) :=
  (convert [model1C5, model2C5]).bind
    (fun pairs =>
      buildByName (pairs.map (fun p => (DBNode.obj p.1, p.2.map DBNode.obj))))

/-- C5 counterexample: in the duplicate-enum scenario the single
create-type action carries the last-emitted duplicate Type node, whose
`reference_columns` lists only the second table's column — not entries
from both tables as the claim states. -/
theorem claim_C5_counterexample :
    (migrateFromScratch [model1C5, model2C5]).map
      (fun acts => acts.filterMap typeCreateObj) =
      .ok [DBObject.typ "enumvalues" ["A", "B"] [("model2", "value")]] ∧
    ("model1", "value") ∉ ([("model2", "value")] : List (String × String)) :=
  ⟨rfl, by decide⟩

/-- C5 (amended): normalization does merge the duplicate Type nodes into
one canonical node whose `reference_columns` is the union over both
tables, and diffing from an empty previous state emits exactly one
create-type action (not two); but that action carries the last-emitted
duplicate node, so its `reference_columns` holds only the second table's
entry. -/
theorem claim_C5_one_create_type :
    dupEnumByName.map (fun m => lookupS m "enumvalues") =
      .ok (some (.typ "enumvalues" ["A", "B"]
        [("model1", "value"), ("model2", "value")])) ∧
    (migrateFromScratch [model1C5, model2C5]).map
      (fun acts => acts.filterMap typeCreateObj) =
      .ok [DBObject.typ "enumvalues" ["A", "B"] [("model2", "value")]] :=
  ⟨rfl, rfl⟩

section ErrorShapeLemmas

lemma exceptBindError {ε α β : Type} (e : ε) (f : α → Except ε β) :
    (Except.error e >>= f) = Except.error e := rfl

lemma exceptBindOk {ε α β : Type} (a : α) (f : α → Except ε β) :
    (Except.ok a >>= f) = f a := rfl

lemma canonDep_error_shape {m : List (String × DBObject)} {d : DBNode}
    {e : SerializerError} (h : canonDep m d = .error e) :
    e = .keyError (repNode d) := by
  unfold canonDep at h
  cases hl : lookupS m (repNode d) with
  | some v =>
    rw [hl] at h
    exact Except.noConfusion h
  | none =>
    rw [hl] at h
    exact (Except.error.injEq _ _ ▸ h :
      SerializerError.keyError (repNode d) = e).symm

lemma canonDeps_error_shape {m : List (String × DBObject)} :
    ∀ {l : List DBNode} {e : SerializerError},
      canonDeps m l = .error e → ∃ r, e = .keyError r := by
  intro l
  induction l with
  | nil =>
    intro e h
    exact Except.noConfusion h
  | cons d rest ih =>
    intro e h
    unfold canonDeps at h
    cases hd : canonDep m d with
    | error e1 =>
      rw [hd, exceptBindError] at h
      injection h with h2
      exact ⟨repNode d, h2 ▸ canonDep_error_shape hd⟩
    | ok v =>
      rw [hd, exceptBindOk] at h
      cases hr : canonDeps m rest with
      | error e2 =>
        rw [hr, exceptBindError] at h
        injection h with h2
        exact h2 ▸ ih hr
      | ok vs =>
        rw [hr, exceptBindOk] at h
        exact Except.noConfusion h

lemma buildGraphEdgesAux_error_shape {m : List (String × DBObject)} :
    ∀ {input : List (DBNode × List DBNode)}
      {acc : List (String × (DBObject × List DBObject))}
      {e : SerializerError},
      buildGraphEdgesAux m input acc = .error e → ∃ r, e = .keyError r := by
  intro input
  induction input with
  | nil =>
    intro acc e h
    exact Except.noConfusion h
  | cons p rest ih =>
    intro acc e h
    unfold buildGraphEdgesAux at h
    cases hk : canonDep m p.1 with
    | error e1 =>
      rw [hk, exceptBindError] at h
      injection h with h2
      exact ⟨repNode p.1, h2 ▸ canonDep_error_shape hk⟩
    | ok key =>
      rw [hk, exceptBindOk] at h
      cases hd : canonDeps m p.2 with
      | error e2 =>
        rw [hd, exceptBindError] at h
        injection h with h2
        exact h2 ▸ canonDeps_error_shape hd
      | ok deps =>
        rw [hd, exceptBindOk] at h
        exact ih h

lemma kahnLoop_error_shape :
    ∀ {fuel : Nat} {emitted : List String}
      {pending : List (String × (DBObject × List DBObject))}
      {e : SerializerError},
      kahnLoop fuel emitted pending = .error e → e = .cycleError := by
  intro fuel
  induction fuel with
  | zero =>
    intro emitted pending e h
    cases pending with
    | nil => exact Except.noConfusion h
    | cons p ps =>
      injection h with h2
      exact h2.symm
  | succ n ih =>
    intro emitted pending e h
    cases pending with
    | nil => exact Except.noConfusion h
    | cons p ps =>
      unfold kahnLoop at h
      by_cases hr : (readyNodes emitted (p :: ps)).isEmpty = true
      · rw [if_pos hr] at h
        injection h with h2
        exact h2.symm
      · rw [if_neg hr] at h
        cases hrec : kahnLoop n
            (emitted ++ (readyNodes emitted (p :: ps)).map (fun q => q.1))
            ((p :: ps).filter
              (fun q =>
                !(q.2.2.all (fun d => emitted.contains (representation d))))) with
        | error e2 =>
          rw [hrec, exceptBindError] at h
          injection h with h2
          exact h2 ▸ ih hrec
        | ok rest =>
          rw [hrec, exceptBindOk] at h
          exact Except.noConfusion h

end ErrorShapeLemmas

/-- C7 (amended): after a successful merge pass, an unresolved dependency
pointer makes `order_db_objects` fail with the unresolved-pointer error
naming the missing representation; when every pointer resolves, the
unresolved-pointer error is never raised — though the function can still
fail otherwise (merge conflict, a full-object dependency with no defined
object, or a cycle). -/
theorem claim_C7_pointer_resolution (input : List (DBNode × List DBNode))
    (m : List (String × DBObject)) (hm : buildByName input = .ok m) :
    (∀ r, firstUnresolvedPointer input m = some r →
      order_db_objects input = .error (.unresolvedPointer r)) ∧
    (firstUnresolvedPointer input m = none →
      ∀ r, order_db_objects input ≠ .error (.unresolvedPointer r)) := by
  constructor
  · intro r hr
    have hcp : checkPointers input m = .error (.unresolvedPointer r) := by
      unfold checkPointers
      rw [hr]
    unfold order_db_objects
    rw [hm]
    simp only [exceptBindOk]
    rw [hcp]
    rfl
  · intro hnone r
    have hcp : checkPointers input m = .ok () := by
      unfold checkPointers
      rw [hnone]
    unfold order_db_objects
    rw [hm]
    simp only [exceptBindOk]
    rw [hcp]
    simp only [exceptBindOk]
    cases hge : buildGraphEdges input m with
    | error e =>
      simp only [exceptBindError]
      rcases buildGraphEdgesAux_error_shape hge with ⟨r', rfl⟩
      intro hcontra
      injection hcontra with h2
      exact SerializerError.noConfusion h2
    | ok edges =>
      simp only [exceptBindOk]
      cases hkl : kahnLoop edges.length [] edges with
      | error e =>
        simp only [exceptBindError]
        have he := kahnLoop_error_shape hkl
        subst he
        intro hcontra
        injection hcontra with h2
        exact SerializerError.noConfusion h2
      | ok out =>
        simp only [exceptBindOk]
        intro hcontra
        exact Except.noConfusion hcontra

/-- C7 witness: a single full object whose dependency pointer is
unresolved triggers exactly the pointer error; and on an input with no
pointers at all, the pointer error never appears. -/
theorem claim_C7_witness :
    (buildByName [(DBNode.obj (.table "a"), [DBNode.ptr "missing"])] =
      .ok [("a", DBObject.table "a")] ∧
     firstUnresolvedPointer [(DBNode.obj (.table "a"), [DBNode.ptr "missing"])]
       [("a", DBObject.table "a")] = some "missing") ∧
    order_db_objects [(DBNode.obj (.table "a"), [DBNode.ptr "missing"])] =
      .error (.unresolvedPointer "missing") :=
  ⟨⟨rfl, rfl⟩,
    (claim_C7_pointer_resolution
      [(DBNode.obj (.table "a"), [DBNode.ptr "missing"])]
      [("a", DBObject.table "a")] rfl).1 "missing" rfl⟩

/-- A DBNode that is a pointer. -/
def isPtrNode : DBNode → Bool
  | .ptr _ => true
  | .obj _ => false

/-- C7 counterexample: an input whose dependency lists hold no pointer at
all (so every pointer trivially resolves) on which `order_db_objects`
still raises a fatal error — the full-object dependency `b` has no
defined object, raising the dictionary lookup error, not the pointer
error; so "raises if and only if some dependency pointer is unresolved"
fails. -/
theorem claim_C7_counterexample :
    ((([(DBNode.obj (.table "a"), [DBNode.obj (.table "b")])] :
        List (DBNode × List DBNode)).flatMap (fun p => p.2)).all
      (fun d => !isPtrNode d) = true) ∧
    order_db_objects [(DBNode.obj (.table "a"), [DBNode.obj (.table "b")])] =
      .error (.keyError "b") :=
  ⟨rfl, rfl⟩

section NormalizerInvariants

lemma exceptBind_ok_inv {ε α β : Type} {m : Except ε α} {f : α → Except ε β}
    {b : β} (h : (m >>= f) = .ok b) : ∃ a, m = .ok a ∧ f a = .ok b := by
  cases m with
  | error e => exact Except.noConfusion h
  | ok a => exact ⟨a, rfl, h⟩

lemma merge_rep {cur other merged : DBObject}
    (h : merge cur other = .ok merged) :
    representation merged = representation cur := by
  cases cur <;> cases other <;> simp only [merge] at h <;> split at h
  all_goals
    first
      | exact Except.noConfusion h
      | (injection h with h2
         subst h2
         rfl)

lemma buildByNameStep_inv {acc m : List (String × DBObject)} {node : DBNode}
    (hki : ∀ p ∈ acc, p.1 = representation p.2)
    (hnd : ((acc.map (fun p => p.1)).Nodup))
    (h : buildByNameStep acc node = .ok m) :
    (∀ p ∈ m, p.1 = representation p.2) ∧ ((m.map (fun p => p.1)).Nodup) := by
  cases node with
  | ptr s =>
    simp only [buildByNameStep] at h
    injection h with h2
    subst h2
    exact ⟨hki, hnd⟩
  | obj o =>
    simp only [buildByNameStep] at h
    cases hl : lookupS acc (representation o) with
    | some cur =>
      rw [hl] at h
      have h2 : (merge cur o >>= fun merged =>
          Except.ok (upsert acc (representation o) merged)) = Except.ok m := h
      rcases exceptBind_ok_inv h2 with ⟨merged, hmg, hok⟩
      injection hok with h3
      subst h3
      have hcurrep : representation o = representation cur :=
        hki _ (mem_of_lookupS_eq_some hl)
      have hmrep : representation merged = representation o := by
        rw [merge_rep hmg, hcurrep]
      refine ⟨?_, nodup_keys_upsert _ _ _ hnd⟩
      intro p hp
      rcases mem_upsert hp with h' | h'
      · exact hki p h'
      · rw [h']
        exact hmrep.symm
    | none =>
      rw [hl] at h
      have h2 : Except.ok (upsert acc (representation o) o) = Except.ok m := h
      injection h2 with h3
      subst h3
      refine ⟨?_, nodup_keys_upsert _ _ _ hnd⟩
      intro p hp
      rcases mem_upsert hp with h' | h'
      · exact hki p h'
      · rw [h']

lemma buildByNameAux_inv :
    ∀ {input : List (DBNode × List DBNode)} {acc m : List (String × DBObject)},
      (∀ p ∈ acc, p.1 = representation p.2) →
      ((acc.map (fun p => p.1)).Nodup) →
      buildByNameAux input acc = .ok m →
      (∀ p ∈ m, p.1 = representation p.2) ∧ ((m.map (fun p => p.1)).Nodup) := by
  intro input
  induction input with
  | nil =>
    intro acc m hki hnd h
    injection h with h2
    subst h2
    exact ⟨hki, hnd⟩
  | cons pr rest ih =>
    intro acc m hki hnd h
    unfold buildByNameAux at h
    rcases exceptBind_ok_inv h with ⟨next, hstep, hrest⟩
    have hinv := buildByNameStep_inv hki hnd hstep
    exact ih hinv.1 hinv.2 hrest

lemma canonDep_ok {m : List (String × DBObject)} {x : DBNode} {v : DBObject}
    (h : canonDep m x = .ok v) : lookupS m (repNode x) = some v := by
  unfold canonDep at h
  cases hl : lookupS m (repNode x) with
  | some w =>
    rw [hl] at h
    injection h with h2
    rw [h2]
  | none =>
    rw [hl] at h
    exact Except.noConfusion h

lemma canonDeps_ok_inv {m : List (String × DBObject)} :
    ∀ {l : List DBNode} {ds : List DBObject},
      canonDeps m l = .ok ds →
      ∀ d ∈ ds, ∃ x ∈ l, lookupS m (repNode x) = some d := by
  intro l
  induction l with
  | nil =>
    intro ds h d hd
    injection h with h2
    subst h2
    simp at hd
  | cons x rest ih =>
    intro ds h d hd
    unfold canonDeps at h
    cases hx : canonDep m x with
    | error e =>
      rw [hx, exceptBindError] at h
      exact Except.noConfusion h
    | ok v =>
      rw [hx, exceptBindOk] at h
      cases hr : canonDeps m rest with
      | error e =>
        rw [hr, exceptBindError] at h
        exact Except.noConfusion h
      | ok vs =>
        rw [hr, exceptBindOk] at h
        injection h with h2
        subst h2
        rcases List.mem_cons.mp hd with h' | h'
        · exact ⟨x, List.mem_cons_self _ _, h' ▸ canonDep_ok hx⟩
        · rcases ih hr d h' with ⟨y, hy, hly⟩
          exact ⟨y, List.mem_cons_of_mem _ hy, hly⟩

lemma lookupS_keyinv_self {m : List (String × DBObject)}
    (hki : ∀ p ∈ m, p.1 = representation p.2) {r : String} {v : DBObject}
    (h : lookupS m r = some v) :
    representation v = r ∧ lookupS m (representation v) = some v := by
  have hmem := mem_of_lookupS_eq_some h
  have hr : r = representation v := hki _ hmem
  exact ⟨hr.symm, hr ▸ h⟩

/-- Invariant of the realized edge map: keys are the representations of
their canonical node, every node and every dependency is the canonical
object the map holds for its representation, and keys are distinct. -/
lemma buildGraphEdgesAux_inv {m : List (String × DBObject)}
    (hki : ∀ p ∈ m, p.1 = representation p.2) :
    ∀ {input : List (DBNode × List DBNode)}
      {acc edges : List (String × (DBObject × List DBObject))},
      (∀ q ∈ acc, q.1 = representation q.2.1 ∧
        lookupS m q.1 = some q.2.1 ∧
        ∀ d ∈ q.2.2, lookupS m (representation d) = some d) →
      ((acc.map (fun q => q.1)).Nodup) →
      buildGraphEdgesAux m input acc = .ok edges →
      (∀ q ∈ edges, q.1 = representation q.2.1 ∧
        lookupS m q.1 = some q.2.1 ∧
        ∀ d ∈ q.2.2, lookupS m (representation d) = some d) ∧
      ((edges.map (fun q => q.1)).Nodup) := by
  intro input
  induction input with
  | nil =>
    intro acc edges hinv hnd h
    injection h with h2
    subst h2
    exact ⟨hinv, hnd⟩
  | cons pr rest ih =>
    intro acc edges hinv hnd h
    unfold buildGraphEdgesAux at h
    cases hk : canonDep m pr.1 with
    | error e =>
      rw [hk, exceptBindError] at h
      exact Except.noConfusion h
    | ok key =>
      rw [hk, exceptBindOk] at h
      cases hd : canonDeps m pr.2 with
      | error e =>
        rw [hd, exceptBindError] at h
        exact Except.noConfusion h
      | ok deps =>
        rw [hd, exceptBindOk] at h
        refine ih ?_ (nodup_keys_upsert _ _ _ hnd) h
        intro q hq
        rcases mem_upsert hq with h' | h'
        · exact hinv q h'
        · subst h'
          have hkeyl := lookupS_keyinv_self hki (canonDep_ok hk)
          refine ⟨rfl, hkeyl.2, ?_⟩

          intro d hdm
          rcases canonDeps_ok_inv hd d hdm with ⟨x, _, hx⟩
          exact (lookupS_keyinv_self hki hx).2

end NormalizerInvariants

section KahnLemmas

lemma kahnLoop_ok_perm :
    ∀ {fuel : Nat} {emitted : List String}
      {pending : List (String × (DBObject × List DBObject))}
      {out : List DBObject},
      kahnLoop fuel emitted pending = .ok out →
      out.Perm (pending.map (fun q => q.2.1)) := by
  intro fuel
  induction fuel with
  | zero =>
    intro emitted pending out h
    cases pending with
    | nil =>
      injection h with h2
      subst h2
      simp
    | cons p ps => exact Except.noConfusion h
  | succ n ih =>
    intro emitted pending out h
    cases pending with
    | nil =>
      injection h with h2
      subst h2
      simp
    | cons p ps =>
      unfold kahnLoop at h
      by_cases hre : (readyNodes emitted (p :: ps)).isEmpty = true
      · rw [if_pos hre] at h
        exact Except.noConfusion h
      · rw [if_neg hre] at h
        rcases exceptBind_ok_inv h with ⟨rest, hrec, hok⟩
        injection hok with h2
        subst h2
        have hrest := ih hrec
        refine List.Perm.trans (List.Perm.append_left _ hrest) ?_
        have hready : readyNodes emitted (p :: ps) =
            (p :: ps).filter
              (fun q => q.2.2.all (fun d => emitted.contains (representation d))) :=
          rfl
        rw [hready, ← List.map_append]
        exact List.Perm.map _ (List.filter_append_perm _ _)

lemma kahnLoop_ok_spec :
    ∀ {fuel : Nat} {emitted : List String}
      {pending : List (String × (DBObject × List DBObject))}
      {out : List DBObject},
      ((pending.map (fun q => q.1)).Nodup) →
      (∀ q ∈ pending, q.1 = representation q.2.1) →
      kahnLoop fuel emitted pending = .ok out →
      ∀ q ∈ pending, ∀ d ∈ q.2.2,
        representation d ∈ emitted ∨
        (representation d ∈ out.map representation ∧
          (out.map representation).indexOf (representation d) <
            (out.map representation).indexOf (representation q.2.1)) := by
  intro fuel
  induction fuel with
  | zero =>
    intro emitted pending out hnd hki h
    cases pending with
    | nil =>
      intro q hq
      simp at hq
    | cons p ps => exact Except.noConfusion h
  | succ n ih =>
    intro emitted pending out hnd hki h
    cases pending with
    | nil =>
      intro q hq
      simp at hq
    | cons p ps =>
      unfold kahnLoop at h
      by_cases hre : (readyNodes emitted (p :: ps)).isEmpty = true
      · rw [if_pos hre] at h
        exact Except.noConfusion h
      · rw [if_neg hre] at h
        rcases exceptBind_ok_inv h with ⟨rest, hrec, hok⟩
        injection hok with h2
        subst h2
        have hready : readyNodes emitted (p :: ps) =
            (p :: ps).filter
              (fun q => q.2.2.all (fun d => emitted.contains (representation d))) :=
          rfl
        have hrem_sub :
            (((p :: ps).filter
              (fun q =>
                !(q.2.2.all (fun d => emitted.contains (representation d))))).map
              (fun q => q.1)).Sublist ((p :: ps).map (fun q => q.1)) :=
          List.Sublist.map _ (List.filter_sublist _)
        have hnd_rem := List.Nodup.sublist hrem_sub hnd
        have hki_rem : ∀ q ∈ (p :: ps).filter
            (fun q =>
              !(q.2.2.all (fun d => emitted.contains (representation d)))),
            q.1 = representation q.2.1 :=
          fun q hq => hki q (List.mem_of_mem_filter hq)
        have IH := ih hnd_rem hki_rem hrec
        have hrestperm := kahnLoop_ok_perm hrec
        have hreadyreps : ((readyNodes emitted (p :: ps)).map
            (fun q => q.2.1)).map representation =
            (readyNodes emitted (p :: ps)).map (fun q => q.1) := by
          rw [List.map_map]
          refine List.map_congr_left (fun q hq => ?_)
          rw [hready] at hq
          exact (hki q (List.mem_of_mem_filter hq)).symm
        have houtreps :
            (((readyNodes emitted (p :: ps)).map (fun q => q.2.1) ++ rest).map
              representation) =
              (readyNodes emitted (p :: ps)).map (fun q => q.1) ++
                rest.map representation := by
          rw [List.map_append, hreadyreps]
        have hrestreps : (rest.map representation).Perm
            (((p :: ps).filter
              (fun q =>
                !(q.2.2.all (fun d => emitted.contains (representation d))))).map
              (fun q => q.1)) := by
          refine List.Perm.trans (List.Perm.map representation hrestperm) ?_
          rw [List.map_map]
          exact List.Perm.of_eq
            (List.map_congr_left (fun q hq => (hki_rem q hq).symm))
        have hkeys_part :
            (((readyNodes emitted (p :: ps)).map (fun q => q.1) ++
              rest.map representation)).Perm ((p :: ps).map (fun q => q.1)) := by
          refine List.Perm.trans (List.Perm.append_left _ hrestreps) ?_
          rw [hready, ← List.map_append]
          exact List.Perm.map _ (List.filter_append_perm _ _)
        have houtnodup :
            (((readyNodes emitted (p :: ps)).map (fun q => q.1) ++
              rest.map representation)).Nodup :=
          hkeys_part.symm.nodup hnd
        have hdisj : ∀ r, r ∈ (readyNodes emitted (p :: ps)).map (fun q => q.1) →
            r ∉ rest.map representation := by
          intro r hr1 hr2
          exact (List.nodup_append.mp houtnodup).2.2 hr1 hr2
        intro q hq d hd
        by_cases hfq :
            (q.2.2.all (fun d => emitted.contains (representation d))) = true
        · left
          have := List.all_eq_true.mp hfq d hd
          exact List.elem_iff.mp this
        · have hfq' : (q.2.2.all (fun d => emitted.contains (representation d)))
              = false := Bool.eq_false_iff.mpr hfq
          have hqrem : q ∈ (p :: ps).filter
              (fun q =>
                !(q.2.2.all (fun d => emitted.contains (representation d)))) :=
            List.mem_filter.mpr ⟨hq, by rw [hfq']; rfl⟩
          have hq1rest : q.1 ∈ rest.map representation :=
            hrestreps.symm.mem_iff.mp (List.mem_map_of_mem (fun q => q.1) hqrem)
          have hq1notready : q.1 ∉
              (readyNodes emitted (p :: ps)).map (fun q => q.1) :=
            fun hmem => hdisj q.1 hmem hq1rest
          have hqrep : representation q.2.1 = q.1 := (hki q hq).symm
          rcases IH q hqrem d hd with hdem | ⟨hdm, hdlt⟩
          · rcases List.mem_append.mp hdem with hdem | hdem
            · exact Or.inl hdem
            · right
              rw [houtreps]
              refine ⟨List.mem_append.mpr (Or.inl hdem), ?_⟩
              rw [hqrep]
              rw [indexOf_append_left hdem, indexOf_append_right hq1notready]
              have hlt1 : List.indexOf (representation d)
                  ((readyNodes emitted (p :: ps)).map (fun q => q.1)) <
                  ((readyNodes emitted (p :: ps)).map (fun q => q.1)).length :=
                List.indexOf_lt_length.mpr hdem
              exact Nat.lt_of_lt_of_le hlt1 (Nat.le_add_right _ _)
          · right
            rw [houtreps]
            by_cases hrd : representation d ∈
                (readyNodes emitted (p :: ps)).map (fun q => q.1)
            · refine ⟨List.mem_append.mpr (Or.inl hrd), ?_⟩
              rw [hqrep]
              rw [indexOf_append_left hrd, indexOf_append_right hq1notready]
              have hlt1 : List.indexOf (representation d)
                  ((readyNodes emitted (p :: ps)).map (fun q => q.1)) <
                  ((readyNodes emitted (p :: ps)).map (fun q => q.1)).length :=
                List.indexOf_lt_length.mpr hrd
              exact Nat.lt_of_lt_of_le hlt1 (Nat.le_add_right _ _)
            · refine ⟨List.mem_append.mpr (Or.inr hdm), ?_⟩
              rw [hqrep]
              rw [indexOf_append_right hrd, indexOf_append_right hq1notready]
              rw [hqrep] at hdlt
              exact Nat.add_lt_add_left hdlt _

end KahnLemmas

section EdgeKeyLemmas

lemma buildByNameStep_keys {acc next : List (String × DBObject)} {node : DBNode}
    (h : buildByNameStep acc node = .ok next) :
    ∀ k ∈ next.map (fun p => p.1),
      k ∈ acc.map (fun p => p.1) ∨
      ∃ o, node = DBNode.obj o ∧ representation o = k := by
  intro k hk
  cases node with
  | ptr s =>
    simp only [buildByNameStep] at h
    injection h with h2
    subst h2
    exact Or.inl hk
  | obj o =>
    simp only [buildByNameStep] at h
    cases hl : lookupS acc (representation o) with
    | some cur =>
      rw [hl] at h
      have h2 : (merge cur o >>= fun merged =>
          Except.ok (upsert acc (representation o) merged)) = Except.ok next := h
      rcases exceptBind_ok_inv h2 with ⟨merged, _, hok⟩
      injection hok with h3
      subst h3
      rcases keys_upsert_subset acc (representation o) merged k hk with h' | h'
      · exact Or.inl h'
      · exact Or.inr ⟨o, rfl, h'.symm⟩
    | none =>
      rw [hl] at h
      have h2 : Except.ok (upsert acc (representation o) o) = Except.ok next := h
      injection h2 with h3
      subst h3
      rcases keys_upsert_subset acc (representation o) o k hk with h' | h'
      · exact Or.inl h'
      · exact Or.inr ⟨o, rfl, h'.symm⟩

lemma buildByNameAux_keys_origin :
    ∀ {input : List (DBNode × List DBNode)} {acc m : List (String × DBObject)},
      buildByNameAux input acc = .ok m →
      ∀ k ∈ m.map (fun p => p.1),
        k ∈ acc.map (fun p => p.1) ∨
        ∃ pr ∈ input, ∃ o, pr.1 = DBNode.obj o ∧ representation o = k := by
  intro input
  induction input with
  | nil =>
    intro acc m h k hk
    injection h with h2
    subst h2
    exact Or.inl hk
  | cons pr rest ih =>
    intro acc m h k hk
    unfold buildByNameAux at h
    rcases exceptBind_ok_inv h with ⟨next, hstep, hrest⟩
    rcases ih hrest k hk with h' | ⟨pr', hpr', o, ho, hrep⟩
    · rcases buildByNameStep_keys hstep k h' with h'' | ⟨o, ho, hrep⟩
      · exact Or.inl h''
      · exact Or.inr ⟨pr, List.mem_cons_self _ _, o, ho, hrep⟩
    · exact Or.inr ⟨pr', List.mem_cons_of_mem _ hpr', o, ho, hrep⟩

lemma buildGraphEdgesAux_keys_mono {m : List (String × DBObject)} :
    ∀ {input : List (DBNode × List DBNode)}
      {acc edges : List (String × (DBObject × List DBObject))},
      buildGraphEdgesAux m input acc = .ok edges →
      ∀ k ∈ acc.map (fun q => q.1), k ∈ edges.map (fun q => q.1) := by
  intro input
  induction input with
  | nil =>
    intro acc edges h k hk
    injection h with h2
    subst h2
    exact hk
  | cons pr rest ih =>
    intro acc edges h k hk
    unfold buildGraphEdgesAux at h
    cases hk' : canonDep m pr.1 with
    | error e =>
      rw [hk', exceptBindError] at h
      exact Except.noConfusion h
    | ok key =>
      rw [hk', exceptBindOk] at h
      cases hd : canonDeps m pr.2 with
      | error e =>
        rw [hd, exceptBindError] at h
        exact Except.noConfusion h
      | ok deps =>
        rw [hd, exceptBindOk] at h
        exact ih h k (keys_upsert_mono acc _ _ k hk)

lemma buildGraphEdgesAux_key_of_pair {m : List (String × DBObject)} :
    ∀ {input : List (DBNode × List DBNode)}
      {acc edges : List (String × (DBObject × List DBObject))},
      buildGraphEdgesAux m input acc = .ok edges →
      ∀ pr ∈ input, ∀ key, canonDep m pr.1 = .ok key →
        representation key ∈ edges.map (fun q => q.1) := by
  intro input
  induction input with
  | nil =>
    intro acc edges h pr hpr
    simp at hpr
  | cons pr' rest ih =>
    intro acc edges h pr hpr key hkey
    unfold buildGraphEdgesAux at h
    cases hk' : canonDep m pr'.1 with
    | error e =>
      rw [hk', exceptBindError] at h
      exact Except.noConfusion h
    | ok key' =>
      rw [hk', exceptBindOk] at h
      cases hd : canonDeps m pr'.2 with
      | error e =>
        rw [hd, exceptBindError] at h
        exact Except.noConfusion h
      | ok deps =>
        rw [hd, exceptBindOk] at h
        rcases List.mem_cons.mp hpr with h' | h'
        · subst h'
          rw [hkey] at hk'
          injection hk' with h2
          subst h2
          exact buildGraphEdgesAux_keys_mono h _
            (keys_upsert_mem acc _ _)
        · exact ih h pr h' key hkey

lemma withRanks_mem_indexOf :
    ∀ {l : List DBObject} {a : DBObject}, a ∈ l →
      ∀ k, (a, k + l.indexOf a) ∈ withRanks l k := by
  intro l
  induction l with
  | nil =>
    intro a ha
    simp at ha
  | cons x xs ih =>
    intro a ha k
    by_cases hax : x = a
    · subst hax
      rw [List.indexOf_cons_self]
      exact List.mem_cons_self _ _
    · have haxs : a ∈ xs := by
        rcases List.mem_cons.mp ha with h' | h'
        · exact absurd h'.symm hax
        · exact h'
      rw [List.indexOf_cons_ne _ hax]
      have := ih haxs (k + 1)
      have heq : k + (List.indexOf a xs).succ = (k + 1) + List.indexOf a xs := by
        omega
      rw [heq]
      exact List.mem_cons_of_mem _ this

end EdgeKeyLemmas

/-- C2 (amended): whenever `order_db_objects` returns a rank map, every
edge of the realized dependency graph — where, among input pairs sharing
a representation, only the last pair's dependency list is kept — is
respected: the dependency's rank is strictly below the dependent's. -/
theorem claim_C2_rank_respects_realized_edges
    (input : List (DBNode × List DBNode)) (m : List (String × DBObject))
    (edges : List (String × (DBObject × List DBObject)))
    (ranks : List (DBObject × Nat))
    (hm : buildByName input = .ok m)
    (he : buildGraphEdges input m = .ok edges)
    (hr : order_db_objects input = .ok ranks) :
    ∀ q ∈ edges, ∀ d ∈ q.2.2,
      ∃ i j, (d, i) ∈ ranks ∧ (q.2.1, j) ∈ ranks ∧ i < j := by
  unfold order_db_objects at hr
  rw [hm] at hr
  simp only [exceptBindOk] at hr
  rcases exceptBind_ok_inv hr with ⟨u, hcp, hr2⟩
  cases u
  rw [he] at hr2
  simp only [exceptBindOk] at hr2
  rcases exceptBind_ok_inv hr2 with ⟨out, hkl, hok⟩
  injection hok with hranks
  subst hranks
  have hminv := buildByNameAux_inv (by intro p hp; simp at hp) (by simp) hm
  have hedges := buildGraphEdgesAux_inv hminv.1
    (by intro q hq; simp at hq) (by simp) he
  have hkeyinv_edges : ∀ q ∈ edges, q.1 = representation q.2.1 :=
    fun q hq => (hedges.1 q hq).1
  have hspec := kahnLoop_ok_spec hedges.2 hkeyinv_edges hkl
  have hperm := kahnLoop_ok_perm hkl
  have houtreps_perm : (out.map representation).Perm
      (edges.map (fun q => q.1)) := by
    refine List.Perm.trans (List.Perm.map representation hperm) ?_
    rw [List.map_map]
    exact List.Perm.of_eq
      (List.map_congr_left (fun q hq => (hkeyinv_edges q hq).symm))
  have hnodup_out : (out.map representation).Nodup :=
    houtreps_perm.symm.nodup hedges.2
  intro q hq d hd
  rcases hspec q hq d hd with hdem | ⟨_, hdlt⟩
  · simp at hdem
  · have hddef : lookupS m (representation d) = some d :=
      (hedges.1 q hq).2.2 d hd
    have hdkey : representation d ∈ m.map (fun p => p.1) :=
      List.mem_map.mpr ⟨(representation d, d), mem_of_lookupS_eq_some hddef, rfl⟩
    rcases buildByNameAux_keys_origin hm _ hdkey with h' | ⟨pr, hpr, o, hpro, hrep⟩
    · simp at h'
    · have hcd : canonDep m pr.1 = .ok d := by
        rw [hpro]
        unfold canonDep
        have hrn : repNode (DBNode.obj o) = representation o := rfl
        rw [hrn, hrep, hddef]
      have hdedge : representation d ∈ edges.map (fun e' => e'.1) :=
        buildGraphEdgesAux_key_of_pair he pr hpr d hcd
      rcases lookupS_isSome_of_mem_keys hdedge with ⟨val, hval⟩
      have hvalmem := mem_of_lookupS_eq_some hval
      have hvalkey : lookupS m (representation d) = some val.1 :=
        ((hedges.1 _ hvalmem).2.1 :
          lookupS m (representation d, val).1 = some (representation d, val).2.1)
      have hvald : val.1 = d := by
        rw [hddef] at hvalkey
        injection hvalkey with h2
        exact h2.symm
      have hdout : d ∈ out := by
        refine hperm.mem_iff.mpr ?_
        refine List.mem_map.mpr ⟨(representation d, val), hvalmem, hvald⟩
      have hqout : q.2.1 ∈ out :=
        hperm.mem_iff.mpr (List.mem_map.mpr ⟨q, hq, rfl⟩)
      have hidx_d : (out.map representation).indexOf (representation d) =
          out.indexOf d := indexOf_map_rep hnodup_out hdout
      have hidx_q : (out.map representation).indexOf (representation q.2.1) =
          out.indexOf q.2.1 := indexOf_map_rep hnodup_out hqout
      refine ⟨out.indexOf d, out.indexOf q.2.1, ?_, ?_, ?_⟩
      · have := withRanks_mem_indexOf hdout 0
        simpa using this
      · have := withRanks_mem_indexOf hqout 0
        simpa using this
      · rw [hidx_d, hidx_q] at hdlt
        exact hdlt

/-- A table-and-column input for exercising the rank property. -/
def c2wInput : List (DBNode × List DBNode) :=
  [(.obj (.table "t"), []),
   (.obj (.column "t" "c" (.primitive .INTEGER) false false),
    [.obj (.table "t")])]

/-- Canonical map of `c2wInput`. -/
def c2wMap : List (String × DBObject) :=
  [("t", .table "t"),
   ("t.c", .column "t" "c" (.primitive .INTEGER) false false)]

/-- Realized edges of `c2wInput`. -/
def c2wEdges : List (String × (DBObject × List DBObject)) :=
  [("t", (.table "t", [])),
   ("t.c", (.column "t" "c" (.primitive .INTEGER) false false,
    [.table "t"]))]

/-- Rank map of `c2wInput`. -/
def c2wRanks : List (DBObject × Nat) :=
  [(.table "t", 0),
   (.column "t" "c" (.primitive .INTEGER) false false, 1)]

/-- C2 witness: on the table-and-column input every realized edge gets
ranks with the dependency strictly below the dependent. -/
theorem claim_C2_witness :
    (buildByName c2wInput = .ok c2wMap ∧
      buildGraphEdges c2wInput c2wMap = .ok c2wEdges ∧
      order_db_objects c2wInput = .ok c2wRanks) ∧
    ∀ q ∈ c2wEdges, ∀ d ∈ q.2.2,
      ∃ i j, (d, i) ∈ c2wRanks ∧ (q.2.1, j) ∈ c2wRanks ∧ i < j :=
  ⟨⟨rfl, rfl, rfl⟩,
    claim_C2_rank_respects_realized_edges c2wInput c2wMap c2wEdges c2wRanks
      rfl rfl rfl⟩

/-- Every dependency edge declared by any input pair, as a
(dependency representation, dependent representation) pair — including
pairs whose object shares its representation with another pair. -/
def declaredPairs (input : List (DBNode × List DBNode)) :
    List (String × String) :=
  input.flatMap (fun p => p.2.map (fun d => (repNode d, repNode p.1)))

/-- Input refuting the claim: the representation `x` appears in two pairs;
the first declares the dependency on `a`, the second on `b`, and the
Python dict comprehension keeps only the second pair's dependency list. -/
def cexC2 : List (DBNode × List DBNode) :=
  [(.obj (.table "x"), [.obj (.table "a")]),
   (.obj (.table "x"), [.obj (.table "b")]),
   (.obj (.table "b"), []),
   (.obj (.table "d0"), []),
   (.obj (.table "d1"), [.obj (.table "d0")]),
   (.obj (.table "a"), [.obj (.table "d1")])]

/-- A topological order of `cexC2`'s declared dependency relation,
witnessing that the declared relation is acyclic. -/
def cexC2Order : List String := ["d0", "d1", "a", "b", "x"]

/-- C2 counterexample: the declared dependency relation of `cexC2` is
acyclic (witnessed by a topological order over all declared edges), the
input declares `a` as a dependency of `x`, yet the returned rank map puts
`a` at rank 4 and `x` at rank 2 — the dropped first-pair edge is not
respected, so the claim fails as stated. -/
theorem claim_C2_counterexample :
    ((declaredPairs cexC2).all
      (fun e => decide (cexC2Order.indexOf e.1 < cexC2Order.indexOf e.2)) =
      true) ∧
    (DBNode.obj (DBObject.table "x"),
      [DBNode.obj (DBObject.table "a")]) ∈ cexC2 ∧
    order_db_objects cexC2 = .ok
      [(DBObject.table "b", 0), (DBObject.table "d0", 1),
       (DBObject.table "x", 2), (DBObject.table "d1", 3),
       (DBObject.table "a", 4)] ∧
    ¬ ((4 : Nat) < 2) :=
  ⟨rfl, by decide, rfl, by decide⟩

end Iceaxe
